import Mathlib

/-!
# Hash-based generic set (`HashSet.c`, `Node.c`): model and verified properties

A shallow embedding of the open-addressing hash set of the repository.

Modelling conventions:

* A `Value` of the C code is a `void *`.  The model represents the pointed-to
  content by a type `α` and a possibly-null pointer by `Option α`
  (`none` is `NULL`).
* The four user callbacks stored in the C structs never change after
  `hash_set_alloc`; they are collected in `Callbacks` and passed explicitly.
  `hash_set_alloc` and `node_alloc` refuse null callbacks, so the callbacks of
  an allocated set are total functions.  `value_free` only releases memory and
  has no counterpart in the model.
* `NodesList` is the list of the nodes pointed to by the C array.  A read
  `NodesList[idx]` is `NodesList[idx]?`; `none` takes the paths the C code has
  for a null node pointer.
* `size_t` arithmetic on hash values is reduced modulo `2 ^ 64`, `unsigned int`
  arithmetic on capacities and indices modulo `2 ^ 32`.
* `size` and the chain counters stay far inside `size_t` and `int` (the
  invariant `Inv0` gives `size ≤ capacity ≤ 2 ^ 31`, and a counter is at most
  `size`), so `size++`, `size--`, `hashCount++` and `hashCount--` are plain
  arithmetic on `Nat` and `Int`.
* The load factor `(double) size / capacity` is an exact quotient for the
  integers involved when the capacity is not 0, and `0.75` and `0.25` are exact
  doubles; the two tests on it are decided on the integers and related to the
  rational quotient by `load_factor_ge_max_iff` and `load_factor_le_min_iff`.
  With capacity 0 the quotient of the code is not a number; no call evaluates a
  test on the load factor in that state (both probe loops run zero times).
* The cycle `hash_set_insert → resize_hashset → rehash → hash_set_insert` is
  modelled with a recursion budget (`fuel`); a call that exhausts the budget
  yields `none`.  The theorems show that budget `2` always suffices.
-/

namespace CHashSet

/-- A possibly-null pointer to a stored element: `none` is `NULL`. -/
abbrev Value (α : Type) := Option α

/-- The user callbacks of a set (`hash_func`, `value_cpy`, `value_cmp`). -/
structure Callbacks (α : Type) where
  hash_func : Value α → Nat
  value_cpy : Value α → Value α
  value_cmp : Value α → Value α → Int

/-- A `Node`: the stored element (or `NULL`) and the chain counter. -/
structure Node (α : Type) where
  data : Value α
  hashCount : Int
deriving DecidableEq, Repr

/-- The mutable part of a `HashSet`. -/
structure HashSet (α : Type) where
  NodesList : List (Node α)
  size : Nat
  capacity : Nat
deriving DecidableEq, Repr

/-- Modelled from the spec: `HASH_SET_INITIAL_CAP` of the missing `HashSet.h`
(initial capacity 16). -/
def HASH_SET_INITIAL_CAP : Nat := 16

/-- Modelled from the spec: `HASH_SET_GROWTH_FACTOR` of the missing `HashSet.h`
(growth factor 2). -/
def HASH_SET_GROWTH_FACTOR : Nat := 2

/-- Modelled from the spec: `HASH_SET_MAX_LOAD_FACTOR` of the missing
`HashSet.h` (max load factor 0.75). -/
def HASH_SET_MAX_LOAD_FACTOR : ℚ := 3 / 4

/-- Modelled from the spec: `HASH_SET_MIN_LOAD_FACTOR` of the missing
`HashSet.h` (min load factor 0.25). -/
def HASH_SET_MIN_LOAD_FACTOR : ℚ := 1 / 4

variable {α : Type}

/-! ## `Node.c` -/

/-- Function `node_alloc` with non-null callbacks: an empty node with counter 0. -/
def node_alloc : Node α := { data := none, hashCount := 0 }

/-- Function `check_node`: `-1` on a null node, null value or empty node; otherwise the
stored element is copied and compared with `value`. -/
def check_node (F : Callbacks α) (node : Option (Node α)) (value : Value α) : Int :=
  match node with
  | none => -1
  | some n =>
    if value.isNone || n.data.isNone then -1
    else
      let cpy_value := F.value_cpy n.data
      let result := F.value_cmp cpy_value value
      if result = 1 then 1 else 0

/-- Function `set_node_data`: stores a copy of `value`; the flag is `0` when `value` is
null or the copy is null. -/
def set_node_data (F : Callbacks α) (node : Node α) (value : Value α) : Node α × Int :=
  if value.isNone then (node, 0)
  else
    let new_value := F.value_cpy value
    let node1 := { node with data := new_value }
    if node1.data.isNone then (node1, 0) else (node1, 1)

/-- Function `clear_node`: drops the stored element. -/
def clear_node (node : Node α) : Node α := { node with data := none }

/-- Function `get_hash_count`. -/
def get_hash_count (node : Option (Node α)) : Int :=
  match node with
  | none => -1
  | some n => n.hashCount

/-! ## `HashSet.c` -/

/-- Function `fixed_mod`: `value & (capacity - 1)`, the subtraction in `unsigned int`. -/
def fixed_mod (value capacity : Nat) : Nat :=
  value &&& ((capacity + 2 ^ 32 - 1) % 2 ^ 32)

/-- Function `is_node_free`. -/
def is_node_free (node : Option (Node α)) : Int :=
  match node with
  | none => -1
  | some n => if n.data.isNone then 1 else 0

/-- The slot index of probe attempt `i`:
`fixed_mod(hash_func(value) + (i + i * i) / 2, capacity)` stored in an
`unsigned int`. -/
def probe_idx (F : Callbacks α) (capacity : Nat) (value : Value α) (i : Nat) : Nat :=
  fixed_mod ((F.hash_func value % 2 ^ 64 + ((i + i * i) % 2 ^ 64) / 2) % 2 ^ 64) capacity % 2 ^ 32

/-- Function `hash_set_get_load_factor`: `(double) size / capacity`. -/
def hash_set_get_load_factor (s : HashSet α) : ℚ := (s.size : ℚ) / (s.capacity : ℚ)

/-- The test `load_factor >= HASH_SET_MAX_LOAD_FACTOR` of `hash_set_insert`,
decided exactly on the integers: `size / capacity ≥ 3 / 4` is
`3 * capacity ≤ 4 * size` (see `load_factor_ge_max_iff`). -/
def load_factor_ge_max (s : HashSet α) : Bool := decide (3 * s.capacity ≤ 4 * s.size)

/-- The test `load_factor <= HASH_SET_MIN_LOAD_FACTOR` of `hash_set_erase`,
decided exactly on the integers: `size / capacity ≤ 1 / 4` is
`4 * size ≤ capacity` (see `load_factor_le_min_iff`). -/
def load_factor_le_min (s : HashSet α) : Bool := decide (4 * s.size ≤ s.capacity)

/-- Function `node_list_alloc`: `capacity` fresh nodes. -/
def node_list_alloc (capacity : Nat) : List (Node α) := List.replicate capacity node_alloc

/-- Function `copy_values`: copies of the stored elements, in slot order. -/
def copy_values (F : Callbacks α) (s : HashSet α) : List (Value α) :=
  (s.NodesList.filter (fun n => !n.data.isNone)).map (fun n => F.value_cpy n.data)

/-- Function `rehash`: re-inserts every non-null entry of the snapshot with `ins`
(the recursive call to `hash_set_insert`, whose result flag is ignored). -/
def rehash (ins : HashSet α → Value α → Option (HashSet α × Int)) :
    HashSet α → List (Value α) → Option (HashSet α)
  | s, [] => some s
  | s, v :: rest =>
    if v.isNone then rehash ins s rest
    else (ins s v).bind (fun r => rehash ins r.1 rest)

/-- Function `resize_hashset`: snapshot, fresh node array of `new_capacity` nodes,
size reset to 0, then `rehash` over the first `old_size` snapshot entries. -/
def resize_hashset (F : Callbacks α) (ins : HashSet α → Value α → Option (HashSet α × Int))
    (s : HashSet α) (new_capacity : Nat) : Option (HashSet α) :=
  let tmp_values_list := copy_values F s
  let old_size := s.size
  let s1 : HashSet α :=
    { NodesList := node_list_alloc new_capacity, size := 0, capacity := new_capacity }
  rehash ins s1 (tmp_values_list.take old_size)

/-- Function `hash_set_alloc` with non-null callbacks. -/
def hash_set_alloc : HashSet α :=
  { NodesList := node_list_alloc HASH_SET_INITIAL_CAP, size := 0,
    capacity := HASH_SET_INITIAL_CAP }

/-- The statement `NodesList[idx]->hashCount++`. -/
def incr_hash_count (s : HashSet α) (idx : Nat) : HashSet α :=
  match s.NodesList[idx]? with
  | none => s
  | some n => { s with NodesList := s.NodesList.set idx { n with hashCount := n.hashCount + 1 } }

/-- The statement `NodesList[idx]->hashCount--`. -/
def decr_hash_count (s : HashSet α) (idx : Nat) : HashSet α :=
  match s.NodesList[idx]? with
  | none => s
  | some n => { s with NodesList := s.NodesList.set idx { n with hashCount := n.hashCount - 1 } }

/-- The probe loop of `hash_set_contains_value`, from attempt `i` with
`remaining` attempts left. -/
def contains_loop (F : Callbacks α) (s : HashSet α) (value : Value α) : Nat → Nat → Int
  | 0, _ => 0
  | remaining + 1, i =>
    let idx := probe_idx F s.capacity value i
    let result := check_node F s.NodesList[idx]? value
    if result = 1 then 1 else contains_loop F s value remaining (i + 1)

/-- Function `hash_set_contains_value`: `0` on a null value or a zero chain
counter at the primary position, otherwise the result of the probe loop. -/
def hash_set_contains_value (F : Callbacks α) (s : HashSet α) (value : Value α) : Int :=
  if value.isNone then 0
  else
    let idx2 := fixed_mod (F.hash_func value % 2 ^ 64) s.capacity % 2 ^ 32
    if get_hash_count s.NodesList[idx2]? = 0 then 0
    else contains_loop F s value s.capacity 0

/-- The probe loop of `hash_set_insert`, from attempt `i` with `remaining`
attempts left; `ins` is the recursive `hash_set_insert` used by the resize. -/
def insert_loop (F : Callbacks α) (ins : HashSet α → Value α → Option (HashSet α × Int))
    (value new_value : Value α) : Nat → Nat → HashSet α → Option (HashSet α × Int)
  | 0, _, s => some (s, 0)
  | remaining + 1, i, s =>
    let idx := probe_idx F s.capacity value i
    let result := is_node_free s.NodesList[idx]?
    if result = 1 then
      match s.NodesList[idx]? with
      | none => insert_loop F ins value new_value remaining (i + 1) s
      | some node =>
        let added := set_node_data F node new_value
        let s1 : HashSet α := { s with NodesList := s.NodesList.set idx added.1 }
        if added.2 ≠ 0 then
          let s2 := if i = 0 then incr_hash_count s1 idx else s1
          let s3 : HashSet α := { s2 with size := s2.size + 1 }
          if load_factor_ge_max s3 then
            let new_capacity := (s3.capacity * HASH_SET_GROWTH_FACTOR) % 2 ^ 32
            (resize_hashset F ins s3 new_capacity).map (fun s4 => (s4, 1))
          else some (s3, 1)
        else insert_loop F ins value new_value remaining (i + 1) s1
    else if result = 0 then
      let s1 := if i = 0 then incr_hash_count s idx else s
      insert_loop F ins value new_value remaining (i + 1) s1
    else insert_loop F ins value new_value remaining (i + 1) s

/-- The body of `hash_set_insert`, the recursive call being `ins`. -/
def hash_set_insert_body (F : Callbacks α)
    (ins : HashSet α → Value α → Option (HashSet α × Int))
    (s : HashSet α) (value : Value α) : Option (HashSet α × Int) :=
  if value.isNone then some (s, 0)
  else
    let new_value := F.value_cpy value
    if hash_set_contains_value F s value = 1 then some (s, 0)
    else insert_loop F ins value new_value s.capacity 0 s

/-- Function `hash_set_insert` with recursion budget `fuel`: the new state and the
returned flag, or `none` when the budget is exhausted. -/
def hash_set_insert (F : Callbacks α) : Nat → HashSet α → Value α → Option (HashSet α × Int)
  | 0 => fun _ _ => none
  | fuel + 1 => hash_set_insert_body F (hash_set_insert F fuel)

/-- The probe loop of `hash_set_erase`, from attempt `i` with `remaining`
attempts left. -/
def erase_loop (F : Callbacks α) (ins : HashSet α → Value α → Option (HashSet α × Int))
    (s : HashSet α) (value : Value α) (first_idx : Nat) : Nat → Nat → Option (HashSet α × Int)
  | 0, _ => some (s, 0)
  | remaining + 1, i =>
    let idx := probe_idx F s.capacity value i
    let result := check_node F s.NodesList[idx]? value
    if result = 1 then
      let s1 : HashSet α :=
        match s.NodesList[idx]? with
        | none => s
        | some node => { s with NodesList := s.NodesList.set idx (clear_node node) }
      let s2 : HashSet α := { s1 with size := s1.size - 1 }
      let s3 := decr_hash_count s2 first_idx
      if load_factor_le_min s3 then
        let new_capacity := s3.capacity / HASH_SET_GROWTH_FACTOR
        (resize_hashset F ins s3 new_capacity).map (fun s4 => (s4, 1))
      else some (s3, 1)
    else erase_loop F ins s value first_idx remaining (i + 1)

/-- Function `hash_set_erase` with recursion budget `fuel` for the inserts of a
shrinking resize. -/
def hash_set_erase (F : Callbacks α) (fuel : Nat) (s : HashSet α) (value : Value α) :
    Option (HashSet α × Int) :=
  if value.isNone then some (s, 0)
  else if hash_set_contains_value F s value = 0 then some (s, 0)
  else
    let first_idx := fixed_mod (F.hash_func value % 2 ^ 64) s.capacity % 2 ^ 32
    erase_loop F (hash_set_insert F fuel) s value first_idx s.capacity 0

/-- Function `hash_set_clear`: every node loses its element and its counter, size 0. -/
def hash_set_clear (s : HashSet α) : HashSet α :=
  { s with
    NodesList := s.NodesList.map (fun n => { clear_node n with hashCount := 0 }),
    size := 0 }

/-- Function `hash_set_at`, `index` being the C `int` argument. -/
def hash_set_at (s : HashSet α) (index : Int) : Value α :=
  if index = 0 ∨ index < 0 ∨ s.capacity ≤ index.toNat then none
  else
    match s.NodesList[index.toNat]? with
    | none => none
    | some node => node.data

/-! ## Call sequences -/

/-- A call of the public interface with a non-null value. -/
inductive Op (α : Type) where
  | insert (v : α)
  | erase (v : α)
  | clear
deriving DecidableEq, Repr

/-- One call applied to a set. -/
def step (F : Callbacks α) (fuel : Nat) (s : HashSet α) : Op α → Option (HashSet α)
  | Op.insert v => (hash_set_insert F fuel s (some v)).map Prod.fst
  | Op.erase v => (hash_set_erase F fuel s (some v)).map Prod.fst
  | Op.clear => some (hash_set_clear s)

/-- The calls `ops`, in order, from the set `s`. -/
def run_from (F : Callbacks α) (fuel : Nat) : HashSet α → List (Op α) → Option (HashSet α)
  | s, [] => some s
  | s, op :: rest => (step F fuel s op).bind (fun s1 => run_from F fuel s1 rest)

/-- The calls `ops`, in order, on a freshly allocated set. -/
def run (F : Callbacks α) (fuel : Nat) (ops : List (Op α)) : Option (HashSet α) :=
  run_from F fuel hash_set_alloc ops

/-- Callbacks for machine-word elements: the element is its own hash, copies
are faithful, `value_cmp` is equality. -/
def natCallbacks : Callbacks Nat where
  hash_func := fun v => v.getD 0
  value_cpy := fun v => v
  value_cmp := fun a b => if a = b then 1 else 0

/-! ## Specification vocabulary -/

/-- The `i`-th probe offset `(i + i * i) / 2`. -/
def tri (i : Nat) : Nat := (i + i * i) / 2

/-- The stored elements of a set, in slot order. -/
def stored (s : HashSet α) : List α := s.NodesList.filterMap (fun n => n.data)

/-- The primary probe position of an element in a table of the given
capacity. -/
def home (F : Callbacks α) (capacity : Nat) (x : α) : Nat := F.hash_func (some x) % capacity

/-- The assumptions on the callbacks: copying never fails and yields the same
element, and `value_cmp` reports `1` exactly on equal elements. -/
structure Faithful (F : Callbacks α) : Prop where
  cpy : ∀ v : α, F.value_cpy (some v) = some v
  cmp : ∀ a b : α, F.value_cmp (some a) (some b) = 1 ↔ a = b

/-- The structural invariant of a set: power-of-two capacity within
`unsigned int`, one node per slot, `size` counts the stored elements, no element
is stored twice, and every chain counter counts the stored elements whose
primary position is its slot. -/
structure Inv0 (F : Callbacks α) (s : HashSet α) : Prop where
  pow : ∃ k, k ≤ 31 ∧ s.capacity = 2 ^ k
  len : s.NodesList.length = s.capacity
  size_eq : s.size = (stored s).length
  nodup : (stored s).Nodup
  cnt : ∀ q n, s.NodesList[q]? = some n →
    n.hashCount = Int.ofNat ((stored s).countP (fun x => decide (home F s.capacity x = q)))

/-- The invariant of the sets seen between calls: `Inv0` and a load factor
below `3 / 4`. -/
structure Inv (F : Callbacks α) (s : HashSet α) extends Inv0 F s : Prop where
  load : 4 * s.size < 3 * s.capacity

/-- The statement `NodesList[idx]->data = copy of v` on a free node. -/
def put_data (s : HashSet α) (idx : Nat) (v : α) : HashSet α :=
  match s.NodesList[idx]? with
  | none => s
  | some n => { s with NodesList := s.NodesList.set idx { n with data := some v } }

/-- The tail of a successful `hash_set_insert` once the element is placed:
`size++`, then the growth test and the resize. -/
def insert_finish (F : Callbacks α) (ins : HashSet α → Value α → Option (HashSet α × Int))
    (s2 : HashSet α) : Option (HashSet α × Int) :=
  let s3 : HashSet α := { s2 with size := s2.size + 1 }
  if load_factor_ge_max s3 then
    (resize_hashset F ins s3 ((s3.capacity * HASH_SET_GROWTH_FACTOR) % 2 ^ 32)).map
      (fun s4 => (s4, 1))
  else some (s3, 1)

/-- The statement `clear_node(NodesList[idx])`. -/
def clear_data (s : HashSet α) (idx : Nat) : HashSet α :=
  match s.NodesList[idx]? with
  | none => s
  | some node => { s with NodesList := s.NodesList.set idx (clear_node node) }

/-- The tail of a successful `hash_set_erase` once the element is found in
slot `idx`: the node is cleared, `size--`, the counter of the primary slot is
decremented, then the shrink test and the resize. -/
def erase_finish (F : Callbacks α) (ins : HashSet α → Value α → Option (HashSet α × Int))
    (s : HashSet α) (idx first_idx : Nat) : Option (HashSet α × Int) :=
  let s1 := clear_data s idx
  let s2 : HashSet α := { s1 with size := s1.size - 1 }
  let s3 := decr_hash_count s2 first_idx
  if load_factor_le_min s3 then
    (resize_hashset F ins s3 (s3.capacity / HASH_SET_GROWTH_FACTOR)).map (fun s4 => (s4, 1))
  else some (s3, 1)

/-- Function `check_node` as a transformer of the node it is handed: the node
after the call and the returned flag.  The C body reads `node->data`, compares
a copy of it with `value` and frees the copy. -/
def check_node_state (F : Callbacks α) (node : Option (Node α)) (value : Value α) :
    Option (Node α) × Int :=
  match node with
  | none => (none, -1)
  | some n =>
    if value.isNone || n.data.isNone then (some n, -1)
    else
      let cpy_value := F.value_cpy n.data
      let result := F.value_cmp cpy_value value
      if result = 1 then (some n, 1) else (some n, 0)

/-- The capacity after `n` insertions of absent values into a table of the
given size and capacity, following the growth test of `hash_set_insert`. -/
def capacity_after_inserts : Nat → Nat → Nat → Nat
  | 0, _, capacity => capacity
  | n + 1, size, capacity =>
    capacity_after_inserts n (size + 1)
      (if 3 * capacity ≤ 4 * (size + 1) then capacity * HASH_SET_GROWTH_FACTOR else capacity)

/-- One call on the mathematical finite set the hash set stands for. -/
def abstract_step [DecidableEq α] (A : Finset α) : Op α → Finset α
  | Op.insert v => insert v A
  | Op.erase v => A.erase v
  | Op.clear => ∅

/-- The mathematical finite set after the calls `ops`, in order, from `A`. -/
def abstract_run [DecidableEq α] : List (Op α) → Finset α → Finset α
  | [], A => A
  | op :: rest, A => abstract_run rest (abstract_step A op)

/-- The set a growth leaves when the doubled capacity wraps around to 0 in
`unsigned int`: no slot, size 0, capacity 0. -/
def overflowed : HashSet α := { NodesList := [], size := 0, capacity := 0 }

/-- The number of stored values at which `hash_set_insert` meets the growth
test on a table of capacity `2 ^ 31`, the capacity whose double does not fit
`unsigned int`. -/
def overflow_size : Nat := 3 * 2 ^ 29

/-- The largest number of values the mathematical set holds at any point of
the calls `ops`, from `A`. -/
def peak_card [DecidableEq α] : List (Op α) → Finset α → Nat
  | [], A => A.card
  | op :: rest, A => max A.card (peak_card rest (abstract_step A op))

/-! ## The probe sequence -/

theorem two_mul_tri (i : Nat) : 2 * tri i = i * (i + 1) := by
  unfold tri
  have h : 2 ∣ i + i * i := by
    have : i + i * i = i * (i + 1) := by ring
    rw [this]
    exact (Nat.even_mul_succ_self i).two_dvd
  rw [Nat.mul_div_cancel' h]; ring

theorem tri_succ (i : Nat) : tri (i + 1) = tri i + (i + 1) := by
  have h1 := two_mul_tri i
  have h2 := two_mul_tri (i + 1)
  have : 2 * tri (i + 1) = 2 * (tri i + (i + 1)) := by
    rw [h2, Nat.mul_add 2, h1]; ring
  omega

theorem tri_mono {i j : Nat} (h : i ≤ j) : tri i ≤ tri j := by
  induction h with
  | refl => exact le_rfl
  | step _ ih => rw [tri_succ]; omega

/-- Two probe attempts below a power-of-two capacity whose triangular offsets
agree modulo the capacity are the same attempt. -/
theorem tri_inj_lt (k i j : Nat) (hi : i < 2 ^ k) (hij : j < i)
    (h : tri i % 2 ^ k = tri j % 2 ^ k) : False := by
  have hle : tri j ≤ tri i := tri_mono hij.le
  have hd : 2 ^ k ∣ tri i - tri j := (Nat.modEq_iff_dvd' hle).mp h.symm
  have hprod : 2 * (tri i - tri j) = (i - j) * (i + j + 1) := by
    rw [Nat.mul_sub, two_mul_tri, two_mul_tri]
    obtain ⟨d, rfl⟩ : ∃ d, i = j + d := ⟨i - j, by omega⟩
    have : j + d - j = d := by omega
    rw [this]
    have e : (j + d) * (j + d + 1) = j * (j + 1) + d * (j + d + j + 1) := by ring
    rw [e]; omega
  have hd2 : 2 ^ (k + 1) ∣ (i - j) * (i + j + 1) := by
    rw [← hprod, pow_succ, Nat.mul_comm]
    exact Nat.mul_dvd_mul_left 2 hd
  have hpos1 : 0 < i - j := by omega
  have hlt1 : i - j < 2 ^ (k + 1) := by
    have : 2 ^ (k + 1) = 2 * 2 ^ k := by ring
    omega
  have hlt2 : i + j + 1 < 2 ^ (k + 1) := by
    have : 2 ^ (k + 1) = 2 * 2 ^ k := by ring
    omega
  rcases Nat.even_or_odd (i - j) with he | ho
  · have ho2 : Odd (i + j + 1) := by
      rcases he with ⟨m, hm⟩
      exact ⟨j + m, by omega⟩
    have hc : Nat.Coprime (2 ^ (k + 1)) (i + j + 1) :=
      Nat.Coprime.pow_left _ (Nat.coprime_two_left.mpr ho2)
    have := hc.dvd_of_dvd_mul_right hd2
    have := Nat.le_of_dvd hpos1 this
    omega
  · have hc : Nat.Coprime (2 ^ (k + 1)) (i - j) :=
      Nat.Coprime.pow_left _ (Nat.coprime_two_left.mpr ho)
    have := hc.dvd_of_dvd_mul_left hd2
    have := Nat.le_of_dvd (by omega) this
    omega

theorem probe_inj (k h i j : Nat) (hi : i < 2 ^ k) (hj : j < 2 ^ k)
    (e : (h + tri i) % 2 ^ k = (h + tri j) % 2 ^ k) : i = j := by
  have e2 : tri i % 2 ^ k = tri j % 2 ^ k := Nat.ModEq.add_left_cancel' h e
  rcases Nat.lt_trichotomy i j with hlt | heq | hgt
  · exact (tri_inj_lt k j i hj hlt e2.symm).elim
  · exact heq
  · exact (tri_inj_lt k i j hi hgt e2).elim

/-- The probe sequence reaches every slot of a table of power-of-two
capacity. -/
theorem probe_surj (k h q : Nat) (hq : q < 2 ^ k) :
    ∃ i, i < 2 ^ k ∧ (h + tri i) % 2 ^ k = q := by
  let f : Fin (2 ^ k) → Fin (2 ^ k) :=
    fun i => ⟨(h + tri i.1) % 2 ^ k, Nat.mod_lt _ (by positivity)⟩
  have hf : Function.Injective f := by
    intro a b hab
    have := congrArg Fin.val hab
    exact Fin.ext (probe_inj k h a.1 b.1 a.2 b.2 this)
  obtain ⟨a, ha⟩ := (Finite.injective_iff_surjective.mp hf) ⟨q, hq⟩
  exact ⟨a.1, a.2, congrArg Fin.val ha⟩

theorem fixed_mod_pow (k v : Nat) (hk : k ≤ 31) :
    v &&& ((2 ^ k + 2 ^ 32 - 1) % 2 ^ 32) = v % 2 ^ k := by
  have h1 : 2 ^ k ≤ 2 ^ 31 := Nat.pow_le_pow_right (by norm_num) hk
  have h0 : 0 < 2 ^ k := by positivity
  have : (2 ^ k + 2 ^ 32 - 1) % 2 ^ 32 = 2 ^ k - 1 := by
    have e : 2 ^ k + 2 ^ 32 - 1 = (2 ^ k - 1) + 2 ^ 32 := by omega
    rw [e, Nat.add_mod_right, Nat.mod_eq_of_lt]
    norm_num at h1 ⊢
    omega
  rw [this, Nat.and_pow_two_sub_one_eq_mod]

theorem probe_idx_eq (F : Callbacks α) (k : Nat) (hk : k ≤ 31) (value : Value α) (i : Nat)
    (hi : i < 2 ^ 32) :
    probe_idx F (2 ^ k) value i = (F.hash_func value + tri i) % 2 ^ k := by
  unfold probe_idx fixed_mod
  rw [fixed_mod_pow k _ hk]
  have h1 : (i + i * i) % 2 ^ 64 = i + i * i := by
    apply Nat.mod_eq_of_lt
    have : i * i ≤ (2 ^ 32 - 1) * (2 ^ 32 - 1) := Nat.mul_le_mul (by omega) (by omega)
    norm_num at this hi ⊢
    omega
  have hd : 2 ^ k ∣ 2 ^ 64 := Nat.pow_dvd_pow 2 (by omega)
  rw [h1, Nat.mod_mod_of_dvd _ hd]
  have h2 : (F.hash_func value % 2 ^ 64 + (i + i * i) / 2) % 2 ^ k
      = (F.hash_func value + tri i) % 2 ^ k := by
    unfold tri
    rw [Nat.add_mod, Nat.mod_mod_of_dvd _ hd, ← Nat.add_mod]
  rw [h2]
  apply Nat.mod_eq_of_lt
  have : (F.hash_func value + tri i) % 2 ^ k < 2 ^ k := Nat.mod_lt _ (by positivity)
  have : 2 ^ k ≤ 2 ^ 31 := Nat.pow_le_pow_right (by norm_num) hk
  norm_num at this ⊢
  omega

theorem home_idx_eq (F : Callbacks α) (k : Nat) (hk : k ≤ 31) (v : α) :
    fixed_mod (F.hash_func (some v) % 2 ^ 64) (2 ^ k) % 2 ^ 32 = home F (2 ^ k) v := by
  have := probe_idx_eq F k hk (some v) 0 (by norm_num)
  simpa [probe_idx, tri, home] using this

theorem check_node_eq_one {F : Callbacks α} (hF : Faithful F) (o : Option (Node α)) (v : α) :
    check_node F o (some v) = 1 ↔ ∃ n, o = some n ∧ n.data = some v := by
  cases o with
  | none => simp [check_node]
  | some n =>
    cases hd : n.data with
    | none => simp [check_node, hd]
    | some w =>
      simp only [check_node, hd, Option.isNone_some, Bool.or_self, Bool.false_eq_true,
        if_false, hF.cpy w]
      by_cases h : w = v
      · subst h
        simp [(hF.cmp w w).mpr rfl, hd]
      · have : F.value_cmp (some w) (some v) ≠ 1 := fun e => h ((hF.cmp w v).mp e)
        simp [this, h, hd]

theorem contains_loop_eq_one (F : Callbacks α) (s : HashSet α) (value : Value α) :
    ∀ r i, contains_loop F s value r i = 1 ↔
      ∃ j, i ≤ j ∧ j < i + r ∧ check_node F s.NodesList[probe_idx F s.capacity value j]? value = 1 := by
  intro r
  induction r with
  | zero => intro i; simp [contains_loop]; intro j h1 h2; omega
  | succ r ih =>
    intro i
    simp only [contains_loop]
    by_cases h : check_node F s.NodesList[probe_idx F s.capacity value i]? value = 1
    · simp only [h, if_true, true_iff]
      exact ⟨i, le_rfl, by omega, h⟩
    · simp only [h, if_false, ih]
      constructor
      · rintro ⟨j, h1, h2, h3⟩; exact ⟨j, by omega, by omega, h3⟩
      · rintro ⟨j, h1, h2, h3⟩
        have : j ≠ i := fun e => h (e ▸ h3)
        exact ⟨j, by omega, by omega, h3⟩

theorem contains_loop_ne_one (F : Callbacks α) (s : HashSet α) (value : Value α) :
    ∀ r i, contains_loop F s value r i ≠ 1 → contains_loop F s value r i = 0 := by
  intro r
  induction r with
  | zero => intro i _; simp [contains_loop]
  | succ r ih =>
    intro i
    simp only [contains_loop]
    by_cases h : check_node F s.NodesList[probe_idx F s.capacity value i]? value = 1
    · simp [h]
    · simp only [h, if_false]; exact ih (i + 1)

theorem mem_stored (s : HashSet α) (v : α) :
    v ∈ stored s ↔ ∃ (q : Nat) (n : Node α), s.NodesList[q]? = some n ∧ n.data = some v := by
  unfold stored
  rw [List.mem_filterMap]
  constructor
  · rintro ⟨n, hn, hd⟩
    obtain ⟨q, hq⟩ := List.mem_iff_getElem?.mp hn
    exact ⟨q, n, hq, hd⟩
  · rintro ⟨q, n, hq, hd⟩
    exact ⟨n, List.mem_iff_getElem?.mpr ⟨q, hq⟩, hd⟩

theorem pow_lt_two_pow_32 {k : Nat} (hk : k ≤ 31) : 2 ^ k < 2 ^ 32 :=
  Nat.pow_lt_pow_right (by norm_num) (by omega)

theorem probe_idx_lt (F : Callbacks α) (k : Nat) (hk : k ≤ 31) (value : Value α) (i : Nat)
    (hi : i < 2 ^ k) : probe_idx F (2 ^ k) value i < 2 ^ k := by
  rw [probe_idx_eq F k hk value i (lt_trans hi (pow_lt_two_pow_32 hk))]
  exact Nat.mod_lt _ (by positivity)

theorem probe_hits (F : Callbacks α) (k : Nat) (hk : k ≤ 31) (value : Value α) (q : Nat)
    (hq : q < 2 ^ k) : ∃ i, i < 2 ^ k ∧ probe_idx F (2 ^ k) value i = q := by
  obtain ⟨i, hi, e⟩ := probe_surj k (F.hash_func value) q hq
  exact ⟨i, hi, by rw [probe_idx_eq F k hk value i (lt_trans hi (pow_lt_two_pow_32 hk)), e]⟩

theorem probe_idx_inj (F : Callbacks α) (k : Nat) (hk : k ≤ 31) (value : Value α) (i j : Nat)
    (hi : i < 2 ^ k) (hj : j < 2 ^ k)
    (e : probe_idx F (2 ^ k) value i = probe_idx F (2 ^ k) value j) : i = j := by
  rw [probe_idx_eq F k hk value i (lt_trans hi (pow_lt_two_pow_32 hk)),
    probe_idx_eq F k hk value j (lt_trans hj (pow_lt_two_pow_32 hk))] at e
  exact probe_inj k _ i j hi hj e

theorem probe_idx_zero (F : Callbacks α) (k : Nat) (hk : k ≤ 31) (v : α) :
    probe_idx F (2 ^ k) (some v) 0 = home F (2 ^ k) v := by
  rw [probe_idx_eq F k hk (some v) 0 (by norm_num)]
  simp [tri, home]

theorem home_lt (F : Callbacks α) (k : Nat) (v : α) : home F (2 ^ k) v < 2 ^ k :=
  Nat.mod_lt _ (by positivity)

theorem contains_of_not_mem {F : Callbacks α} (hF : Faithful F) (s : HashSet α) (v : α)
    (hv : v ∉ stored s) : hash_set_contains_value F s (some v) = 0 := by
  unfold hash_set_contains_value
  simp only [Option.isNone_some, Bool.false_eq_true, if_false]
  split
  · rfl
  · apply contains_loop_ne_one
    intro h
    obtain ⟨j, _, _, hj⟩ := (contains_loop_eq_one F s (some v) _ _).mp h
    obtain ⟨n, hn, hd⟩ := (check_node_eq_one hF _ v).mp hj
    exact hv ((mem_stored s v).mpr ⟨_, n, hn, hd⟩)

theorem contains_of_mem {F : Callbacks α} (hF : Faithful F) (s : HashSet α) (hI : Inv0 F s)
    (v : α) (hv : v ∈ stored s) : hash_set_contains_value F s (some v) = 1 := by
  obtain ⟨k, hk, hcap⟩ := hI.pow
  unfold hash_set_contains_value
  simp only [Option.isNone_some, Bool.false_eq_true, if_false]
  rw [hcap, home_idx_eq F k hk v]
  have hlt : home F (2 ^ k) v < s.NodesList.length := by
    rw [hI.len, hcap]; exact home_lt F k v
  obtain ⟨n, hn⟩ : ∃ n, s.NodesList[home F (2 ^ k) v]? = some n :=
    ⟨_, List.getElem?_eq_getElem hlt⟩
  have hc := hI.cnt _ n hn
  have hpos : 0 < (stored s).countP (fun x => decide (home F s.capacity x = home F (2 ^ k) v)) := by
    rw [List.countP_pos_iff]
    exact ⟨v, hv, by simp [hcap]⟩
  have hne : get_hash_count s.NodesList[home F (2 ^ k) v]? ≠ 0 := by
    rw [hn]; simp only [get_hash_count]; rw [hc]
    simp only [Int.ofNat_eq_coe, ne_eq, Int.natCast_eq_zero]; omega
  rw [if_neg hne]
  rw [contains_loop_eq_one]
  obtain ⟨q, m, hq, hd⟩ := (mem_stored s v).mp hv
  have hq2 : q < 2 ^ k := by
    have := (List.getElem?_eq_some_iff.mp hq).1
    rw [hI.len, hcap] at this; exact this
  obtain ⟨i, hi, e⟩ := probe_hits F k hk (some v) q hq2
  refine ⟨i, Nat.zero_le _, by omega, ?_⟩
  rw [hcap, e]
  exact (check_node_eq_one hF _ v).mpr ⟨m, hq, hd⟩

/-! ## Updating one node -/

theorem filterMap_set_same {β : Type} (f : Node α → Option β) :
    ∀ (l : List (Node α)) (idx : Nat) (n m : Node α), l[idx]? = some n → f m = f n →
      (l.set idx m).filterMap f = l.filterMap f := by
  intro l
  induction l with
  | nil => intro idx n m h; simp at h
  | cons a t ih =>
    intro idx n m h e
    cases idx with
    | zero =>
      simp only [List.getElem?_cons_zero, Option.some.injEq] at h
      subst h
      simp [List.filterMap_cons, e]
    | succ i =>
      simp only [List.getElem?_cons_succ] at h
      simp only [List.set_cons_succ, List.filterMap_cons, ih i n m h e]

theorem filterMap_set_put {β : Type} (f : Node α → Option β) :
    ∀ (l : List (Node α)) (idx : Nat) (n m : Node α) (v : β), l[idx]? = some n → f n = none →
      f m = some v → ((l.set idx m).filterMap f).Perm (v :: l.filterMap f) := by
  intro l
  induction l with
  | nil => intro idx n m v h; simp at h
  | cons a t ih =>
    intro idx n m v h e1 e2
    cases idx with
    | zero =>
      simp only [List.getElem?_cons_zero, Option.some.injEq] at h
      subst h
      simp [List.filterMap_cons, e1, e2]
    | succ i =>
      simp only [List.getElem?_cons_succ] at h
      have := ih i n m v h e1 e2
      simp only [List.set_cons_succ, List.filterMap_cons]
      cases f a with
      | none => exact this
      | some w => exact (List.Perm.cons w this).trans (List.Perm.swap v w _)

theorem filterMap_set_clear {β : Type} (f : Node α → Option β) :
    ∀ (l : List (Node α)) (idx : Nat) (n m : Node α) (v : β), l[idx]? = some n → f n = some v →
      f m = none → (l.filterMap f).Perm (v :: (l.set idx m).filterMap f) := by
  intro l
  induction l with
  | nil => intro idx n m v h; simp at h
  | cons a t ih =>
    intro idx n m v h e1 e2
    cases idx with
    | zero =>
      simp only [List.getElem?_cons_zero, Option.some.injEq] at h
      subst h
      simp [List.filterMap_cons, e1, e2]
    | succ i =>
      simp only [List.getElem?_cons_succ] at h
      have := ih i n m v h e1 e2
      simp only [List.set_cons_succ, List.filterMap_cons]
      cases f a with
      | none => exact this
      | some w => exact (List.Perm.cons w this).trans (List.Perm.swap v w _)

theorem exists_none_of_filterMap_length_lt {β : Type} (f : Node α → Option β) :
    ∀ (l : List (Node α)), (l.filterMap f).length < l.length →
      ∃ (q : Nat) (n : Node α), l[q]? = some n ∧ f n = none := by
  intro l
  induction l with
  | nil => intro h; simp at h
  | cons a t ih =>
    intro h
    cases e : f a with
    | none => exact ⟨0, a, by simp, e⟩
    | some w =>
      simp only [List.filterMap_cons, e, List.length_cons, Nat.add_lt_add_iff_right] at h
      obtain ⟨q, n, hq, hn⟩ := ih h
      exact ⟨q + 1, n, by simpa using hq, hn⟩

/-! ## The counter statements -/

@[simp] theorem incr_hash_count_capacity (s : HashSet α) (p : Nat) :
    (incr_hash_count s p).capacity = s.capacity := by
  unfold incr_hash_count; split <;> rfl

@[simp] theorem incr_hash_count_size (s : HashSet α) (p : Nat) :
    (incr_hash_count s p).size = s.size := by
  unfold incr_hash_count; split <;> rfl

@[simp] theorem incr_hash_count_length (s : HashSet α) (p : Nat) :
    (incr_hash_count s p).NodesList.length = s.NodesList.length := by
  unfold incr_hash_count; split <;> simp

theorem incr_hash_count_get (s : HashSet α) (p q : Nat) :
    (incr_hash_count s p).NodesList[q]? =
      (s.NodesList[q]?).map
        (fun n => if q = p then { n with hashCount := n.hashCount + 1 } else n) := by
  unfold incr_hash_count
  split
  · next h =>
    by_cases e : q = p
    · subst e; simp [h]
    · simp [e]
  · next n h =>
    by_cases e : q = p
    · subst e
      have hlt := (List.getElem?_eq_some_iff.mp h).1
      simp [h, List.getElem?_set_self hlt]
    · simp [e, List.getElem?_set_ne (Ne.symm e)]

@[simp] theorem stored_incr_hash_count (s : HashSet α) (p : Nat) :
    stored (incr_hash_count s p) = stored s := by
  unfold incr_hash_count
  split
  · rfl
  · next n h => exact filterMap_set_same _ _ _ n _ h rfl

@[simp] theorem decr_hash_count_capacity (s : HashSet α) (p : Nat) :
    (decr_hash_count s p).capacity = s.capacity := by
  unfold decr_hash_count; split <;> rfl

@[simp] theorem decr_hash_count_size (s : HashSet α) (p : Nat) :
    (decr_hash_count s p).size = s.size := by
  unfold decr_hash_count; split <;> rfl

@[simp] theorem decr_hash_count_length (s : HashSet α) (p : Nat) :
    (decr_hash_count s p).NodesList.length = s.NodesList.length := by
  unfold decr_hash_count; split <;> simp

theorem decr_hash_count_get (s : HashSet α) (p q : Nat) :
    (decr_hash_count s p).NodesList[q]? =
      (s.NodesList[q]?).map
        (fun n => if q = p then { n with hashCount := n.hashCount - 1 } else n) := by
  unfold decr_hash_count
  split
  · next h =>
    by_cases e : q = p
    · subst e; simp [h]
    · simp [e]
  · next n h =>
    by_cases e : q = p
    · subst e
      have hlt := (List.getElem?_eq_some_iff.mp h).1
      simp [h, List.getElem?_set_self hlt]
    · simp [e, List.getElem?_set_ne (Ne.symm e)]

@[simp] theorem stored_decr_hash_count (s : HashSet α) (p : Nat) :
    stored (decr_hash_count s p) = stored s := by
  unfold decr_hash_count
  split
  · rfl
  · next n h => exact filterMap_set_same _ _ _ n _ h rfl

@[simp] theorem put_data_capacity (s : HashSet α) (idx : Nat) (v : α) :
    (put_data s idx v).capacity = s.capacity := by
  unfold put_data; split <;> rfl

@[simp] theorem put_data_size (s : HashSet α) (idx : Nat) (v : α) :
    (put_data s idx v).size = s.size := by
  unfold put_data; split <;> rfl

@[simp] theorem put_data_length (s : HashSet α) (idx : Nat) (v : α) :
    (put_data s idx v).NodesList.length = s.NodesList.length := by
  unfold put_data; split <;> simp

theorem put_data_get (s : HashSet α) (idx : Nat) (v : α) (q : Nat) :
    (put_data s idx v).NodesList[q]? =
      (s.NodesList[q]?).map (fun n => if q = idx then { n with data := some v } else n) := by
  unfold put_data
  split
  · next h =>
    by_cases e : q = idx
    · subst e; simp [h]
    · simp [e]
  · next n h =>
    by_cases e : q = idx
    · subst e
      have hlt := (List.getElem?_eq_some_iff.mp h).1
      simp [h, List.getElem?_set_self hlt]
    · simp [e, List.getElem?_set_ne (Ne.symm e)]

theorem stored_put_data (s : HashSet α) (idx : Nat) (v : α) (n : Node α)
    (h : s.NodesList[idx]? = some n) (hd : n.data = none) :
    (stored (put_data s idx v)).Perm (v :: stored s) := by
  unfold put_data stored
  rw [h]
  exact filterMap_set_put _ _ _ n _ v h hd rfl

/-! ## The probe loop of `hash_set_insert` -/

theorem set_node_data_some {F : Callbacks α} (hF : Faithful F) (node : Node α) (v : α) :
    set_node_data F node (F.value_cpy (some v)) = ({ node with data := some v }, 1) := by
  simp [set_node_data, hF.cpy v]

theorem is_node_free_eq_one (o : Option (Node α)) :
    is_node_free o = 1 ↔ ∃ n, o = some n ∧ n.data = none := by
  cases o with
  | none => simp [is_node_free]
  | some n =>
    cases h : n.data <;> simp [is_node_free, h]

theorem is_node_free_eq_zero (o : Option (Node α)) :
    is_node_free o = 0 ↔ ∃ n, o = some n ∧ n.data ≠ none := by
  cases o with
  | none => simp [is_node_free]
  | some n =>
    cases h : n.data <;> simp [is_node_free, h]

theorem is_node_free_incr (s : HashSet α) (p q : Nat) :
    is_node_free (incr_hash_count s p).NodesList[q]? = is_node_free s.NodesList[q]? := by
  rw [incr_hash_count_get]
  cases s.NodesList[q]? with
  | none => rfl
  | some n => by_cases e : q = p <;> simp [is_node_free, e]

theorem insert_loop_tail {F : Callbacks α} (hF : Faithful F)
    (ins : HashSet α → Value α → Option (HashSet α × Int)) (v : α) (s : HashSet α) :
    ∀ r i j, 1 ≤ i → i ≤ j → j < i + r →
      (∀ t, i ≤ t → t < j → is_node_free s.NodesList[probe_idx F s.capacity (some v) t]? = 0) →
      is_node_free s.NodesList[probe_idx F s.capacity (some v) j]? = 1 →
      insert_loop F ins (some v) (F.value_cpy (some v)) r i s =
        insert_finish F ins (put_data s (probe_idx F s.capacity (some v) j) v) := by
  intro r
  induction r with
  | zero => intro i j _ h1 h2; omega
  | succ r ih =>
    intro i j hi hij hj hocc hfree
    rcases Nat.eq_or_lt_of_le hij with e | hlt
    · subst e
      obtain ⟨n, hn, _⟩ := (is_node_free_eq_one _).mp hfree
      have hi0 : i ≠ 0 := by omega
      rw [hn] at hfree
      simp only [insert_loop, hfree, if_true, hn, set_node_data_some hF, ne_eq,
        one_ne_zero, not_false_eq_true, hi0, if_false]
      simp only [insert_finish, put_data, hn]
    · have h0 := hocc i le_rfl hlt
      have hi0 : i ≠ 0 := by omega
      simp only [insert_loop, h0, zero_ne_one, if_false, if_true, hi0]
      exact ih (i + 1) j (by omega) (by omega) (by omega)
        (fun t h1 h2 => hocc t (by omega) h2) hfree

theorem incr_put_comm (s : HashSet α) (idx : Nat) (v : α) :
    incr_hash_count (put_data s idx v) idx = put_data (incr_hash_count s idx) idx v := by
  unfold incr_hash_count put_data
  cases h : s.NodesList[idx]? with
  | none => simp [h]
  | some n =>
    have hlt := (List.getElem?_eq_some_iff.mp h).1
    simp [h, List.getElem?_set_self hlt, List.set_set]

theorem insert_loop_head {F : Callbacks α} (hF : Faithful F)
    (ins : HashSet α → Value α → Option (HashSet α × Int)) (v : α) (s : HashSet α)
    (r j : Nat) (hj : j < r)
    (hocc : ∀ t, t < j → is_node_free s.NodesList[probe_idx F s.capacity (some v) t]? = 0)
    (hfree : is_node_free s.NodesList[probe_idx F s.capacity (some v) j]? = 1) :
    insert_loop F ins (some v) (F.value_cpy (some v)) r 0 s =
      insert_finish F ins
        (put_data (incr_hash_count s (probe_idx F s.capacity (some v) 0))
          (probe_idx F s.capacity (some v) j) v) := by
  cases r with
  | zero => omega
  | succ r =>
    cases j with
    | zero =>
      obtain ⟨n, hn, _⟩ := (is_node_free_eq_one _).mp hfree
      rw [hn] at hfree
      simp only [insert_loop, hfree, if_true, hn, set_node_data_some hF, ne_eq,
        one_ne_zero, not_false_eq_true]
      rw [← incr_put_comm]
      simp only [insert_finish, put_data, hn]
    | succ j =>
      have h0 := hocc 0 (by omega)
      simp only [insert_loop, h0, zero_ne_one, if_false, if_true]
      have := insert_loop_tail hF ins v
        (incr_hash_count s (probe_idx F s.capacity (some v) 0)) r 1 (j + 1) le_rfl (by omega)
        (by omega)
        (fun t h1 h2 => by
          rw [is_node_free_incr, incr_hash_count_capacity]; exact hocc t h2)
        (by rw [is_node_free_incr, incr_hash_count_capacity]; exact hfree)
      rw [this, incr_hash_count_capacity]

theorem is_node_free_of_lt (l : List (Node α)) (q : Nat) (hq : q < l.length) :
    is_node_free l[q]? = 0 ∨ is_node_free l[q]? = 1 := by
  rw [List.getElem?_eq_getElem hq]
  cases h : (l[q]).data <;> simp [is_node_free, h]

theorem insert_place {F : Callbacks α} (hF : Faithful F)
    (ins : HashSet α → Value α → Option (HashSet α × Int)) (s : HashSet α) (hI : Inv0 F s)
    (hlt : s.size < s.capacity) (v : α) :
    ∃ (idx : Nat) (n : Node α), s.NodesList[idx]? = some n ∧ n.data = none ∧
      insert_loop F ins (some v) (F.value_cpy (some v)) s.capacity 0 s =
        insert_finish F ins (put_data (incr_hash_count s (home F s.capacity v)) idx v) := by
  obtain ⟨k, hk, hcap⟩ := hI.pow
  have hlen : (s.NodesList.filterMap (fun n => n.data)).length < s.NodesList.length := by
    have h1 := hI.size_eq
    have h2 := hI.len
    unfold stored at h1
    omega
  obtain ⟨q, n0, hq, hn0⟩ := exists_none_of_filterMap_length_lt _ _ hlen
  have hq2 : q < 2 ^ k := by
    have := (List.getElem?_eq_some_iff.mp hq).1
    rw [hI.len, hcap] at this; exact this
  obtain ⟨i0, hi0, e0⟩ := probe_hits F k hk (some v) q hq2
  have hex : ∃ t, is_node_free s.NodesList[probe_idx F s.capacity (some v) t]? = 1 :=
    ⟨i0, by rw [hcap, e0]; exact (is_node_free_eq_one _).mpr ⟨n0, hq, hn0⟩⟩
  classical
  have hj := Nat.find_spec hex
  have hjle : Nat.find hex ≤ i0 :=
    Nat.find_min' hex (by rw [hcap, e0]; exact (is_node_free_eq_one _).mpr ⟨n0, hq, hn0⟩)
  have hocc : ∀ t, t < Nat.find hex →
      is_node_free s.NodesList[probe_idx F s.capacity (some v) t]? = 0 := by
    intro t ht
    have hnot := Nat.find_min hex ht
    have hlt2 : probe_idx F s.capacity (some v) t < s.NodesList.length := by
      rw [hI.len]
      have := probe_idx_lt F k hk (some v) t (by omega)
      rw [hcap]; exact this
    rcases is_node_free_of_lt _ _ hlt2 with h | h
    · exact h
    · exact (hnot h).elim
  obtain ⟨n, hn, hd⟩ := (is_node_free_eq_one _).mp hj
  refine ⟨_, n, hn, hd, ?_⟩
  have := insert_loop_head hF ins v s s.capacity (Nat.find hex) (by omega) hocc hj
  rw [this]
  congr 3
  rw [hcap]; exact probe_idx_zero F k hk v

theorem placed_inv0 {F : Callbacks α} (s : HashSet α) (hI : Inv0 F s) (v : α)
    (hv : v ∉ stored s) (idx : Nat) (n : Node α) (hn : s.NodesList[idx]? = some n)
    (hd : n.data = none) (s3 : HashSet α)
    (hs3 : s3 = { put_data (incr_hash_count s (home F s.capacity v)) idx v with
      size := s.size + 1 }) :
    Inv0 F s3 ∧ (stored s3).Perm (v :: stored s) ∧ s3.capacity = s.capacity ∧
      s3.size = s.size + 1 := by
  have hn1 : (incr_hash_count s (home F s.capacity v)).NodesList[idx]? =
      some (if idx = home F s.capacity v then { n with hashCount := n.hashCount + 1 } else n) := by
    rw [incr_hash_count_get, hn]; rfl
  have hperm : (stored s3).Perm (v :: stored s) := by
    have := stored_put_data (incr_hash_count s (home F s.capacity v)) idx v _ hn1
      (by split <;> simp [hd])
    rw [stored_incr_hash_count] at this
    rw [hs3]; exact this
  have hcap : s3.capacity = s.capacity := by rw [hs3]; simp
  refine ⟨⟨?_, ?_, ?_, ?_, ?_⟩, hperm, hcap, by rw [hs3]⟩
  · rw [hcap]; exact hI.pow
  · rw [hcap, ← hI.len, hs3]; simp
  · rw [hperm.length_eq, hs3]; simp [hI.size_eq]
  · rw [hperm.nodup_iff]; exact List.nodup_cons.mpr ⟨hv, hI.nodup⟩
  · intro q m hm
    have hm2 : (put_data (incr_hash_count s (home F s.capacity v)) idx v).NodesList[q]? = some m := by
      rw [hs3] at hm; exact hm
    rw [put_data_get, incr_hash_count_get] at hm2
    cases hq : s.NodesList[q]? with
    | none => simp [hq] at hm2
    | some m0 =>
      have hc := hI.cnt q m0 hq
      simp only [hq, Option.map_some', Option.some.injEq] at hm2
      have hmc : m.hashCount = m0.hashCount + (if q = home F s.capacity v then 1 else 0) := by
        rw [← hm2]
        split_ifs <;> simp
      rw [hperm.countP_eq, hcap, List.countP_cons, hmc, hc]
      by_cases e2 : q = home F s.capacity v
      · simp [e2]
      · have e3 : ¬ home F s.capacity v = q := fun e => e2 e.symm
        simp [e2, e3]

/-! ## Insertion without growth, `rehash` and `resize_hashset` -/

theorem insert_finish_nogrow (F : Callbacks α)
    (ins : HashSet α → Value α → Option (HashSet α × Int)) (s2 : HashSet α)
    (h : 4 * (s2.size + 1) < 3 * s2.capacity) :
    insert_finish F ins s2 = some ({ s2 with size := s2.size + 1 }, 1) := by
  unfold insert_finish load_factor_ge_max
  simp only [decide_eq_true_eq]
  rw [if_neg (by omega)]

theorem insert_absent_nogrow {F : Callbacks α} (hF : Faithful F) (fuel : Nat) (s : HashSet α)
    (hI : Inv0 F s) (v : α) (hv : v ∉ stored s) (hload : 4 * (s.size + 1) < 3 * s.capacity) :
    ∃ s1, hash_set_insert F (fuel + 1) s (some v) = some (s1, 1) ∧ Inv0 F s1 ∧
      (stored s1).Perm (v :: stored s) ∧ s1.capacity = s.capacity ∧ s1.size = s.size + 1 := by
  obtain ⟨idx, n, hn, hd, hloop⟩ :=
    insert_place hF (hash_set_insert F fuel) s hI (by omega) v
  have hc : hash_set_contains_value F s (some v) ≠ 1 := by
    rw [contains_of_not_mem hF s v hv]; decide
  refine ⟨_, ?_, placed_inv0 s hI v hv idx n hn hd _ rfl⟩
  simp only [hash_set_insert, hash_set_insert_body, Option.isNone_some, Bool.false_eq_true,
    if_false, hc, hloop]
  rw [insert_finish_nogrow _ _ _ (by simpa using hload)]
  simp

theorem rehash_spec {F : Callbacks α} (hF : Faithful F) (fuel : Nat) :
    ∀ (vs : List α) (s : HashSet α), Inv0 F s → vs.Nodup → (∀ x, x ∈ vs → x ∉ stored s) →
      4 * (s.size + vs.length) < 3 * s.capacity →
      ∃ s1, rehash (hash_set_insert F (fuel + 1)) s (vs.map some) = some s1 ∧ Inv0 F s1 ∧
        (stored s1).Perm (vs ++ stored s) ∧ s1.capacity = s.capacity ∧
        s1.size = s.size + vs.length := by
  intro vs
  induction vs with
  | nil =>
    intro s hI _ _ _
    exact ⟨s, rfl, hI, List.Perm.refl _, rfl, rfl⟩
  | cons x xs ih =>
    intro s hI hnd hdis hload
    simp only [List.length_cons] at hload
    obtain ⟨s1, h1, hI1, hp1, hc1, hz1⟩ :=
      insert_absent_nogrow hF fuel s hI x (hdis x (List.mem_cons_self _ _)) (by omega)
    have hnd2 := List.nodup_cons.mp hnd
    obtain ⟨s2, h2, hI2, hp2, hc2, hz2⟩ := ih s1 hI1 hnd2.2
      (fun y hy hmem => by
        rcases List.mem_cons.mp (hp1.mem_iff.mp hmem) with e | e
        · exact hnd2.1 (e ▸ hy)
        · exact hdis y (List.mem_cons_of_mem _ hy) e)
      (by rw [hc1, hz1]; omega)
    refine ⟨s2, ?_, hI2, ?_, by rw [hc2, hc1], by rw [hz2, hz1, List.length_cons]; omega⟩
    · simp only [List.map_cons, rehash, Option.isNone_some, Bool.false_eq_true, if_false, h1,
        Option.some_bind, h2]
    · refine hp2.trans ?_
      refine (List.Perm.append_left xs hp1).trans ?_
      simp

theorem copy_values_eq {F : Callbacks α} (hF : Faithful F) (s : HashSet α) :
    copy_values F s = (stored s).map some := by
  unfold copy_values stored
  induction s.NodesList with
  | nil => rfl
  | cons a t ih =>
    cases h : a.data with
    | none =>
      rw [List.filter_cons, List.filterMap_cons]
      simp only [h, Option.isNone_none, Bool.not_true, Bool.false_eq_true, if_false]
      exact ih
    | some w =>
      rw [List.filter_cons, List.filterMap_cons]
      simp only [h, Option.isNone_some, Bool.not_false, if_true, List.map_cons, hF.cpy w]
      rw [ih]

theorem stored_node_list_alloc (c size : Nat) :
    stored ({ NodesList := node_list_alloc c, size := size, capacity := c } : HashSet α) = [] := by
  unfold stored node_list_alloc node_alloc
  simp only [List.filterMap_eq_nil_iff]
  intro a ha
  rw [List.eq_of_mem_replicate ha]

theorem inv0_empty (F : Callbacks α) (k : Nat) (hk : k ≤ 31) :
    Inv0 F ({ NodesList := node_list_alloc (2 ^ k), size := 0, capacity := 2 ^ k } : HashSet α) := by
  refine ⟨⟨k, hk, rfl⟩, by simp [node_list_alloc], ?_, ?_, ?_⟩
  · rw [stored_node_list_alloc]; rfl
  · rw [stored_node_list_alloc]; exact List.nodup_nil
  · intro q n hn
    rw [stored_node_list_alloc]
    simp only [node_list_alloc, List.getElem?_replicate] at hn
    split at hn
    · simp only [Option.some.injEq] at hn
      rw [← hn]; rfl
    · exact absurd hn (by simp)

theorem resize_spec {F : Callbacks α} (hF : Faithful F) (fuel : Nat) (s : HashSet α)
    (hI : Inv0 F s) (k : Nat) (hk : k ≤ 31) (hload : 4 * s.size < 3 * 2 ^ k) :
    ∃ s1, resize_hashset F (hash_set_insert F (fuel + 1)) s (2 ^ k) = some s1 ∧ Inv0 F s1 ∧
      (stored s1).Perm (stored s) ∧ s1.capacity = 2 ^ k ∧ s1.size = s.size := by
  have htake : (copy_values F s).take s.size = (stored s).map some := by
    rw [copy_values_eq hF, hI.size_eq, ← List.length_map (stored s) some, List.take_length]
  obtain ⟨s1, h1, hI1, hp1, hc1, hz1⟩ := rehash_spec hF fuel (stored s)
    { NodesList := node_list_alloc (2 ^ k), size := 0, capacity := 2 ^ k }
    (inv0_empty F k hk) hI.nodup
    (fun x _ => by rw [stored_node_list_alloc]; exact List.not_mem_nil _)
    (by rw [← hI.size_eq]; simpa using hload)
  refine ⟨s1, ?_, hI1, ?_, hc1, by rw [hz1, ← hI.size_eq]; simp⟩
  · unfold resize_hashset
    simp only [htake]
    exact h1
  · rw [stored_node_list_alloc] at hp1
    simpa using hp1

/-! ## `hash_set_insert` -/

theorem insert_present (F : Callbacks α) (fuel : Nat) (s : HashSet α) (value : Value α)
    (h : hash_set_contains_value F s value = 1) :
    hash_set_insert F (fuel + 1) s value = some (s, 0) := by
  simp only [hash_set_insert, hash_set_insert_body, h, if_true]
  split <;> rfl

theorem insert_finish_eq (F : Callbacks α)
    (ins : HashSet α → Value α → Option (HashSet α × Int)) (s s2 s3 : HashSet α)
    (hz : s2.size = s.size) (hs3 : s3 = { s2 with size := s.size + 1 }) :
    insert_finish F ins s2 =
      if 3 * s3.capacity ≤ 4 * s3.size then
        (resize_hashset F ins s3 ((s3.capacity * 2) % 2 ^ 32)).map (fun s4 => (s4, 1))
      else some (s3, 1) := by
  subst hs3
  unfold insert_finish load_factor_ge_max
  simp only [hz, decide_eq_true_eq, HASH_SET_GROWTH_FACTOR]

theorem insert_absent {F : Callbacks α} (hF : Faithful F) (fuel : Nat) (s : HashSet α)
    (hI : Inv F s) (v : α) (hv : v ∉ stored s) (hsz : s.size + 1 < overflow_size) :
    ∃ s1, hash_set_insert F (fuel + 2) s (some v) = some (s1, 1) ∧ Inv F s1 ∧
      (stored s1).Perm (v :: stored s) ∧ s1.size = s.size + 1 ∧
      s1.capacity = (if 3 * s.capacity ≤ 4 * (s.size + 1) then 2 * s.capacity else s.capacity) := by
  have hload := hI.load
  obtain ⟨idx, n, hn, hd, hloop⟩ :=
    insert_place hF (hash_set_insert F (fuel + 1)) s hI.toInv0 (by omega) v
  have hc : hash_set_contains_value F s (some v) ≠ 1 := by
    rw [contains_of_not_mem hF s v hv]; decide
  obtain ⟨s3, hs3⟩ : ∃ s3 : HashSet α, s3 =
      { put_data (incr_hash_count s (home F s.capacity v)) idx v with size := s.size + 1 } :=
    ⟨_, rfl⟩
  obtain ⟨hI3, hp3, hc3, hz3⟩ := placed_inv0 s hI.toInv0 v hv idx n hn hd s3 hs3
  have hins : hash_set_insert F (fuel + 2) s (some v) =
      insert_finish F (hash_set_insert F (fuel + 1))
        (put_data (incr_hash_count s (home F s.capacity v)) idx v) := by
    show hash_set_insert_body F (hash_set_insert F (fuel + 1)) s (some v) = _
    simp only [hash_set_insert_body, Option.isNone_some, Bool.false_eq_true,
      if_false, hc, hloop]
  rw [hins, insert_finish_eq F _ s _ s3 (by simp) hs3, hc3, hz3]
  by_cases hg : 3 * s.capacity ≤ 4 * (s.size + 1)
  · rw [if_pos hg]
    obtain ⟨k, hk, hcap⟩ := hI.pow
    have hk1 : k + 1 ≤ 31 := by
      by_contra hcon
      have h31 : 2 ^ 31 ≤ 2 ^ k := Nat.pow_le_pow_right (by norm_num) (by omega)
      rw [hcap] at hg
      unfold overflow_size at hsz
      norm_num at h31 hsz
      omega
    have hpos : 0 < 2 ^ k := by positivity
    have hnew : (s.capacity * 2) % 2 ^ 32 = 2 ^ (k + 1) := by
      rw [hcap, ← pow_succ]
      exact Nat.mod_eq_of_lt (Nat.pow_lt_pow_right (by norm_num) (by omega))
    have hpow : 2 ^ (k + 1) = 2 * s.capacity := by rw [hcap, pow_succ]; omega
    have hcpos : 0 < s.capacity := by rw [hcap]; exact hpos
    have hl2 : 4 * (s.size + 1) < 3 * (2 * s.capacity) := by
      rcases (by omega : s.capacity = 1 ∨ 2 ≤ s.capacity) with h1 | h2
      · have : s.size = 0 := by omega
        omega
      · omega
    obtain ⟨s4, h4, hI4, hp4, hc4, hz4⟩ := resize_spec hF fuel s3 hI3 (k + 1) hk1
      (by rw [hz3, hpow]; exact hl2)
    refine ⟨s4, ?_, ⟨hI4, ?_⟩, hp4.trans hp3, by rw [hz4, hz3], ?_⟩
    · rw [hnew, h4]; rfl
    · rw [hz4, hc4, hz3, hpow]; exact hl2
    · rw [hc4, hpow, if_pos hg]
  · rw [if_neg hg]
    refine ⟨s3, rfl, ⟨hI3, ?_⟩, hp3, hz3, by rw [hc3, if_neg hg]⟩
    rw [hz3, hc3]; omega

/-! ## `hash_set_erase` -/

@[simp] theorem clear_data_capacity (s : HashSet α) (idx : Nat) :
    (clear_data s idx).capacity = s.capacity := by
  unfold clear_data; split <;> rfl

@[simp] theorem clear_data_size (s : HashSet α) (idx : Nat) :
    (clear_data s idx).size = s.size := by
  unfold clear_data; split <;> rfl

@[simp] theorem clear_data_length (s : HashSet α) (idx : Nat) :
    (clear_data s idx).NodesList.length = s.NodesList.length := by
  unfold clear_data; split <;> simp

theorem clear_data_get (s : HashSet α) (idx q : Nat) :
    (clear_data s idx).NodesList[q]? =
      (s.NodesList[q]?).map (fun n => if q = idx then clear_node n else n) := by
  unfold clear_data
  split
  · next h =>
    by_cases e : q = idx
    · subst e; simp [h]
    · simp [e]
  · next n h =>
    by_cases e : q = idx
    · subst e
      have hlt := (List.getElem?_eq_some_iff.mp h).1
      simp [h, List.getElem?_set_self hlt]
    · simp [e, List.getElem?_set_ne (Ne.symm e)]

theorem stored_clear_data (s : HashSet α) (idx : Nat) (v : α) (n : Node α)
    (h : s.NodesList[idx]? = some n) (hd : n.data = some v) :
    (stored s).Perm (v :: stored (clear_data s idx)) := by
  unfold clear_data stored
  rw [h]
  exact filterMap_set_clear _ _ _ n _ v h hd rfl

theorem erase_loop_spec (F : Callbacks α)
    (ins : HashSet α → Value α → Option (HashSet α × Int)) (s : HashSet α) (value : Value α)
    (first_idx : Nat) :
    ∀ r i j, i ≤ j → j < i + r →
      (∀ t, i ≤ t → t < j → check_node F s.NodesList[probe_idx F s.capacity value t]? value ≠ 1) →
      check_node F s.NodesList[probe_idx F s.capacity value j]? value = 1 →
      erase_loop F ins s value first_idx r i =
        erase_finish F ins s (probe_idx F s.capacity value j) first_idx := by
  intro r
  induction r with
  | zero => intro i j h1 h2; omega
  | succ r ih =>
    intro i j hij hj hmiss hhit
    rcases Nat.eq_or_lt_of_le hij with e | hlt
    · subst e
      simp only [erase_loop, hhit, if_true]
      rfl
    · have h0 := hmiss i le_rfl hlt
      simp only [erase_loop, h0, if_false]
      exact ih (i + 1) j (by omega) (by omega) (fun t h1 h2 => hmiss t (by omega) h2) hhit

theorem erase_absent (F : Callbacks α) (fuel : Nat) (s : HashSet α) (value : Value α)
    (h : hash_set_contains_value F s value = 0) :
    hash_set_erase F fuel s value = some (s, 0) := by
  unfold hash_set_erase
  simp only [h, if_true]
  split <;> rfl

theorem erased_inv0 {F : Callbacks α} (s : HashSet α) (hI : Inv0 F s) (v : α) (idx : Nat)
    (n : Node α) (hn : s.NodesList[idx]? = some n) (hd : n.data = some v) (s3 : HashSet α)
    (hs3 : s3 = decr_hash_count { clear_data s idx with size := s.size - 1 }
      (home F s.capacity v)) :
    Inv0 F s3 ∧ (stored s).Perm (v :: stored s3) ∧ s3.capacity = s.capacity ∧
      s3.size + 1 = s.size := by
  have hperm : (stored s).Perm (v :: stored s3) := by
    have := stored_clear_data s idx v n hn hd
    rw [hs3, stored_decr_hash_count]
    exact this
  have hcap : s3.capacity = s.capacity := by rw [hs3]; simp
  have hlen := hperm.length_eq
  simp only [List.length_cons] at hlen
  have hsize : s3.size = s.size - 1 := by rw [hs3]; simp
  have hnd : (v :: stored s3).Nodup := hperm.nodup_iff.mp hI.nodup
  refine ⟨⟨?_, ?_, ?_, ?_, ?_⟩, hperm, hcap, ?_⟩
  · rw [hcap]; exact hI.pow
  · rw [hcap, ← hI.len, hs3]; simp
  · rw [hsize, hI.size_eq, hlen]; omega
  · exact (List.nodup_cons.mp hnd).2
  · intro q m hm
    rw [hs3, decr_hash_count_get] at hm
    have hg : ({ clear_data s idx with size := s.size - 1 } : HashSet α).NodesList[q]? =
        (clear_data s idx).NodesList[q]? := rfl
    rw [hg, clear_data_get] at hm
    cases hq : s.NodesList[q]? with
    | none => simp [hq] at hm
    | some m0 =>
      have hc := hI.cnt q m0 hq
      simp only [hq, Option.map_some', Option.some.injEq] at hm
      have hmc : m.hashCount = m0.hashCount - (if q = home F s.capacity v then 1 else 0) := by
        rw [← hm]
        split_ifs <;> simp [clear_node]
      rw [hperm.countP_eq, List.countP_cons] at hc
      rw [hmc, hc, hcap]
      by_cases e2 : q = home F s.capacity v
      · simp [e2]
      · have e3 : ¬ home F s.capacity v = q := fun e => e2 e.symm
        simp [e2, e3]
  · rw [hsize, hI.size_eq, hlen]; omega

theorem erase_finish_eq (F : Callbacks α)
    (ins : HashSet α → Value α → Option (HashSet α × Int)) (s : HashSet α) (idx first_idx : Nat)
    (s3 : HashSet α)
    (hs3 : s3 = decr_hash_count { clear_data s idx with size := s.size - 1 } first_idx) :
    erase_finish F ins s idx first_idx =
      if 4 * s3.size ≤ s3.capacity then
        (resize_hashset F ins s3 (s3.capacity / 2)).map (fun s4 => (s4, 1))
      else some (s3, 1) := by
  subst hs3
  unfold erase_finish load_factor_le_min
  simp only [clear_data_size, decide_eq_true_eq, HASH_SET_GROWTH_FACTOR]

theorem erase_present {F : Callbacks α} (hF : Faithful F) (fuel : Nat) (s : HashSet α)
    (hI : Inv F s) (v : α) (hv : v ∈ stored s) :
    ∃ s1, hash_set_erase F (fuel + 1) s (some v) = some (s1, 1) ∧ Inv F s1 ∧
      (stored s).Perm (v :: stored s1) ∧ s1.size + 1 = s.size ∧
      s1.capacity = (if 4 * (s.size - 1) ≤ s.capacity then s.capacity / 2 else s.capacity) := by
  have hload := hI.load
  obtain ⟨k, hk, hcap⟩ := hI.pow
  have hc1 := contains_of_mem hF s hI.toInv0 v hv
  have hc : hash_set_contains_value F s (some v) ≠ 0 := by rw [hc1]; decide
  obtain ⟨q, m, hq, hd⟩ := (mem_stored s v).mp hv
  have hq2 : q < 2 ^ k := by
    have := (List.getElem?_eq_some_iff.mp hq).1
    rw [hI.len, hcap] at this; exact this
  obtain ⟨i0, hi0, e0⟩ := probe_hits F k hk (some v) q hq2
  have hex : ∃ t, check_node F s.NodesList[probe_idx F s.capacity (some v) t]? (some v) = 1 :=
    ⟨i0, by rw [hcap, e0]; exact (check_node_eq_one hF _ v).mpr ⟨m, hq, hd⟩⟩
  have hers : ∀ j, j < s.capacity →
      (∀ t, t < j → check_node F s.NodesList[probe_idx F s.capacity (some v) t]? (some v) ≠ 1) →
      check_node F s.NodesList[probe_idx F s.capacity (some v) j]? (some v) = 1 →
      hash_set_erase F (fuel + 1) s (some v) =
        erase_finish F (hash_set_insert F (fuel + 1)) s
          (probe_idx F s.capacity (some v) j) (home F s.capacity v) := by
    intro j hjlt hmiss hhit
    unfold hash_set_erase
    rw [if_neg (by simp), if_neg hc]
    show erase_loop F _ s (some v) _ s.capacity 0 = _
    rw [erase_loop_spec F _ s (some v) _ s.capacity 0 j (Nat.zero_le _)
      (by omega) (fun t _ ht => hmiss t ht) hhit]
    congr 1
    rw [hcap]; exact home_idx_eq F k hk v
  classical
  have hj := Nat.find_spec hex
  have hjle : Nat.find hex ≤ i0 :=
    Nat.find_min' hex (by rw [hcap, e0]; exact (check_node_eq_one hF _ v).mpr ⟨m, hq, hd⟩)
  obtain ⟨n, hn, hnd⟩ := (check_node_eq_one hF _ v).mp hj
  obtain ⟨s3, hs3⟩ : ∃ s3 : HashSet α, s3 =
      decr_hash_count { clear_data s (probe_idx F s.capacity (some v) (Nat.find hex)) with
        size := s.size - 1 } (home F s.capacity v) := ⟨_, rfl⟩
  obtain ⟨hI3, hp3, hc3, hz3⟩ := erased_inv0 s hI.toInv0 v _ n hn hnd s3 hs3
  have hsz : 1 ≤ s.size := by omega
  have hjlt : Nat.find hex < s.capacity := by
    have h1 := hi0
    rw [← hcap] at h1
    exact lt_of_le_of_lt hjle h1
  rw [hers (Nat.find hex) hjlt (fun t ht => Nat.find_min hex ht) hj]
  rw [erase_finish_eq F _ s _ _ s3 hs3, hc3]
  have hz3' : s3.size = s.size - 1 := by omega
  rw [hz3']
  by_cases hg : 4 * (s.size - 1) ≤ s.capacity
  · rw [if_pos hg, if_pos hg]
    have hk0 : k ≠ 0 := by
      intro e
      rw [e] at hcap
      norm_num at hcap
      omega
    have hhalf : s.capacity / 2 = 2 ^ (k - 1) := by
      obtain ⟨k', rfl⟩ : ∃ k', k = k' + 1 := ⟨k - 1, by omega⟩
      rw [hcap, pow_succ]; simp
    have hpos : 0 < 2 ^ (k - 1) := by positivity
    have hdbl : s.capacity = 2 * 2 ^ (k - 1) := by
      obtain ⟨k', rfl⟩ : ∃ k', k = k' + 1 := ⟨k - 1, by omega⟩
      rw [hcap, pow_succ]; simp; ring
    obtain ⟨s4, h4, hI4, hp4, hc4, hz4⟩ := resize_spec hF fuel s3 hI3 (k - 1) (by omega)
      (by rw [hz3']; omega)
    refine ⟨s4, ?_, ⟨hI4, ?_⟩, ?_, by rw [hz4]; exact hz3, by rw [hc4, hhalf]⟩
    · rw [hhalf, h4]; rfl
    · rw [hz4, hc4, hz3']; omega
    · exact hp3.trans (List.Perm.cons v hp4.symm)
  · rw [if_neg hg, if_neg hg]
    refine ⟨s3, rfl, ⟨hI3, ?_⟩, hp3, hz3, hc3⟩
    rw [hc3]; omega

/-! ## `hash_set_clear` and `hash_set_alloc` -/

theorem stored_clear (s : HashSet α) : stored (hash_set_clear s) = [] := by
  unfold stored hash_set_clear
  simp only [List.filterMap_eq_nil_iff, List.mem_map]
  rintro a ⟨b, _, rfl⟩
  rfl

theorem clear_inv {F : Callbacks α} (s : HashSet α) (hI : Inv0 F s) :
    Inv F (hash_set_clear s) := by
  obtain ⟨k, hk, hcap⟩ := hI.pow
  have hpos : 0 < 2 ^ k := by positivity
  refine ⟨⟨⟨k, hk, hcap⟩, ?_, ?_, ?_, ?_⟩, ?_⟩
  · simpa [hash_set_clear] using hI.len
  · rw [stored_clear]; rfl
  · rw [stored_clear]; exact List.nodup_nil
  · intro q n hn
    rw [stored_clear]
    simp only [hash_set_clear, List.getElem?_map, Option.map_eq_some'] at hn
    obtain ⟨b, _, rfl⟩ := hn
    rfl
  · show 4 * 0 < 3 * s.capacity
    rw [hcap]; omega

theorem alloc_inv (F : Callbacks α) : Inv F (hash_set_alloc : HashSet α) := by
  refine ⟨inv0_empty F 4 (by norm_num), ?_⟩
  show 4 * 0 < 3 * 16
  norm_num

/-! ## Call sequences -/

theorem natCallbacks_faithful : Faithful natCallbacks :=
  ⟨fun _ => rfl, fun a b => by simp [natCallbacks]⟩

/-! ## Load factor -/

theorem load_factor_ge_max_iff (s : HashSet α) (hc : 0 < s.capacity) :
    load_factor_ge_max s = true ↔ HASH_SET_MAX_LOAD_FACTOR ≤ hash_set_get_load_factor s := by
  unfold load_factor_ge_max HASH_SET_MAX_LOAD_FACTOR hash_set_get_load_factor
  have hq : (0 : ℚ) < s.capacity := by exact_mod_cast hc
  rw [decide_eq_true_eq, le_div_iff₀ hq]
  constructor
  · intro h
    have : ((3 * s.capacity : Nat) : ℚ) ≤ ((4 * s.size : Nat) : ℚ) := by exact_mod_cast h
    push_cast at this
    linarith
  · intro h
    have : ((3 * s.capacity : Nat) : ℚ) ≤ ((4 * s.size : Nat) : ℚ) := by
      push_cast; linarith
    exact_mod_cast this

theorem load_factor_le_min_iff (s : HashSet α) (hc : 0 < s.capacity) :
    load_factor_le_min s = true ↔ hash_set_get_load_factor s ≤ HASH_SET_MIN_LOAD_FACTOR := by
  unfold load_factor_le_min HASH_SET_MIN_LOAD_FACTOR hash_set_get_load_factor
  have hq : (0 : ℚ) < s.capacity := by exact_mod_cast hc
  rw [decide_eq_true_eq, div_le_iff₀ hq]
  constructor
  · intro h
    have : ((4 * s.size : Nat) : ℚ) ≤ ((s.capacity : Nat) : ℚ) := by exact_mod_cast h
    push_cast at this
    linarith
  · intro h
    have : ((4 * s.size : Nat) : ℚ) ≤ ((s.capacity : Nat) : ℚ) := by
      push_cast; linarith
    exact_mod_cast this

theorem inv_capacity_pos {F : Callbacks α} {s : HashSet α} (hI : Inv0 F s) : 0 < s.capacity := by
  obtain ⟨k, _, hcap⟩ := hI.pow
  rw [hcap]; positivity

theorem load_lt_max_of_inv {F : Callbacks α} {s : HashSet α} (hI : Inv F s) :
    hash_set_get_load_factor s < HASH_SET_MAX_LOAD_FACTOR := by
  have hc := inv_capacity_pos hI.toInv0
  have hq : (0 : ℚ) < s.capacity := by exact_mod_cast hc
  unfold HASH_SET_MAX_LOAD_FACTOR hash_set_get_load_factor
  rw [div_lt_iff₀ hq]
  have : ((4 * s.size : Nat) : ℚ) < ((3 * s.capacity : Nat) : ℚ) := by exact_mod_cast hI.load
  push_cast at this
  linarith

/-! ## Total behaviour of insert and erase on invariant states -/

theorem insert_spec {F : Callbacks α} (hF : Faithful F) (fuel : Nat) (s : HashSet α)
    (hI : Inv F s) (hsz : s.size + 1 < overflow_size) (v : α) :
    ∃ s1 r, hash_set_insert F (fuel + 2) s (some v) = some (s1, r) ∧ Inv F s1 ∧
      v ∈ stored s1 := by
  by_cases hv : v ∈ stored s
  · exact ⟨s, 0, insert_present F (fuel + 1) s (some v) (contains_of_mem hF s hI.toInv0 v hv),
      hI, hv⟩
  · obtain ⟨s1, h1, hI1, hp1, _, _⟩ := insert_absent hF fuel s hI v hv hsz
    exact ⟨s1, 1, h1, hI1, hp1.mem_iff.mpr (List.mem_cons_self _ _)⟩

theorem erase_spec {F : Callbacks α} (hF : Faithful F) (fuel : Nat) (s : HashSet α)
    (hI : Inv F s) (v : α) :
    ∃ s1 r, hash_set_erase F (fuel + 1) s (some v) = some (s1, r) ∧ Inv F s1 ∧
      v ∉ stored s1 := by
  by_cases hv : v ∈ stored s
  · obtain ⟨s1, h1, hI1, hp1, _, _⟩ := erase_present hF fuel s hI v hv
    have hnd : (v :: stored s1).Nodup := hp1.nodup_iff.mp hI.nodup
    exact ⟨s1, 1, h1, hI1, (List.nodup_cons.mp hnd).1⟩
  · exact ⟨s, 0, erase_absent F (fuel + 1) s (some v) (contains_of_not_mem hF s v hv), hI, hv⟩

theorem mem_stored_of_contains {F : Callbacks α} (hF : Faithful F) (s : HashSet α) (v : α)
    (h : hash_set_contains_value F s (some v) = 1) : v ∈ stored s := by
  by_contra hv
  rw [contains_of_not_mem hF s v hv] at h
  exact absurd h (by decide)

/-- C3. Duplicate insert is a no-op failure: on every set `s` (reachable or
not) and every value with `hash_set_contains_value(s, value) = 1`,
`hash_set_insert` returns `0` and the state (size, capacity, every stored
value and every chain counter) is unchanged. -/
theorem duplicate_insert_unchanged (F : Callbacks α) (fuel : Nat) (hfuel : 1 ≤ fuel)
    (s : HashSet α) (value : Value α) (h : hash_set_contains_value F s value = 1) :
    hash_set_insert F fuel s value = some (s, 0) := by
  obtain ⟨f, rfl⟩ : ∃ f, fuel = f + 1 := ⟨fuel - 1, by omega⟩
  exact insert_present F f s value h

/-- Witness of C3: inserting 5 twice into a fresh set. -/
theorem duplicate_insert_unchanged_witness :
    1 ≤ 2 ∧
      hash_set_contains_value natCallbacks
        ((run natCallbacks 2 [Op.insert 5]).getD hash_set_alloc) (some 5) = 1 ∧
      hash_set_insert natCallbacks 2 ((run natCallbacks 2 [Op.insert 5]).getD hash_set_alloc)
        (some 5) = some ((run natCallbacks 2 [Op.insert 5]).getD hash_set_alloc, 0) :=
  ⟨by decide, by decide,
    duplicate_insert_unchanged natCallbacks 2 (by decide) _ (some 5) (by decide)⟩

/-- The guard `!value` of `hash_set_at` rejects index 0 on every set. -/
theorem hash_set_at_zero (s : HashSet α) : hash_set_at s 0 = none := by
  simp [hash_set_at]

/-- For an index strictly between 0 and the capacity `hash_set_at` returns the
content of the slot. -/
theorem hash_set_at_pos (s : HashSet α) (index : Int) (h0 : 0 < index)
    (hc : index.toNat < s.capacity) :
    hash_set_at s index = (s.NodesList[index.toNat]?).bind (fun n => n.data) := by
  unfold hash_set_at
  rw [if_neg (by omega)]
  cases s.NodesList[index.toNat]? <;> rfl

/-- C10, at the failing input.  After `hash_set_insert` of a value with hash 16
into a fresh set, slot 0 is in range and occupied by that value, and yet
`hash_set_at(s, 0)` returns `NULL`. -/
theorem hash_set_at_occupied_slot_zero :
    ∃ s n, run natCallbacks 2 [Op.insert 16] = some s ∧ 0 < s.capacity ∧
      s.NodesList[0]? = some n ∧ n.data = some 16 ∧ hash_set_at s 0 = none := by
  refine ⟨⟨({ data := some 16, hashCount := 1 } : Node Nat) :: List.replicate 15 node_alloc,
    1, 16⟩, { data := some 16, hashCount := 1 }, by decide, by decide, by decide, rfl, by decide⟩

theorem check_node_empty (F : Callbacks α) (o : Option (Node α)) (value : Value α)
    (h : ∀ n, o = some n → n.data = none) : check_node F o value = -1 := by
  cases o with
  | none => rfl
  | some n => simp [check_node, h n rfl]

theorem clear_get (s : HashSet α) (q : Nat) (n : Node α)
    (h : (hash_set_clear s).NodesList[q]? = some n) : n.data = none ∧ n.hashCount = 0 := by
  simp only [hash_set_clear, List.getElem?_map, Option.map_eq_some'] at h
  obtain ⟨b, _, rfl⟩ := h
  exact ⟨rfl, rfl⟩

/-- C11. Clear empties the set: after `hash_set_clear(s)` on any set `s`
(reachable or not) the size is 0, every slot is empty with chain counter 0,
the capacity and the number of slots are unchanged, and
`hash_set_contains_value` is `0` for every value. -/
theorem clear_empties (F : Callbacks α) (s : HashSet α) :
    (hash_set_clear s).size = 0 ∧
      (∀ (q : Nat) (n : Node α), (hash_set_clear s).NodesList[q]? = some n →
        n.data = none ∧ n.hashCount = 0) ∧
      (hash_set_clear s).capacity = s.capacity ∧
      (hash_set_clear s).NodesList.length = s.NodesList.length ∧
      (∀ value : Value α, hash_set_contains_value F (hash_set_clear s) value = 0) := by
  refine ⟨rfl, clear_get s, rfl, by simp [hash_set_clear], ?_⟩
  intro value
  unfold hash_set_contains_value
  split
  · rfl
  · simp only []
    split
    · rfl
    · apply contains_loop_ne_one
      intro h
      obtain ⟨j, _, _, hj⟩ := (contains_loop_eq_one F _ value _ _).mp h
      rw [check_node_empty F _ value (fun n hn => (clear_get s _ n hn).1)] at hj
      exact absurd hj (by decide)

theorem check_node_state_eq (F : Callbacks α) (node : Option (Node α)) (value : Value α) :
    check_node_state F node value = (node, check_node F node value) := by
  cases node with
  | none => rfl
  | some n =>
    simp only [check_node_state, check_node]
    split
    · rfl
    · split <;> rfl

theorem check_node_eq_neg_one (F : Callbacks α) (node : Option (Node α)) (value : Value α) :
    check_node F node value = -1 ↔
      (node = none ∨ value = none ∨ ∃ n, node = some n ∧ n.data = none) := by
  cases node with
  | none => simp [check_node]
  | some n =>
    cases value with
    | none => simp [check_node]
    | some v =>
      cases hd : n.data with
      | none => simp [check_node, hd]
      | some d =>
        simp only [check_node, hd, Option.isNone_some, Bool.or_self, Bool.false_eq_true,
          if_false]
        constructor
        · intro h
          split at h <;> exact absurd h (by decide)
        · rintro (h | h | ⟨m, hm, hmd⟩)
          · exact absurd h (by simp)
          · exact absurd h (by simp)
          · simp only [Option.some.injEq] at hm
            rw [← hm, hd] at hmd
            exact absurd hmd (by simp)

theorem check_node_occupied (F : Callbacks α) (n : Node α) (d v : α) (hd : n.data = some d) :
    check_node F (some n) (some v) =
      if F.value_cmp (F.value_cpy (some d)) (some v) = 1 then 1 else 0 := by
  simp [check_node, hd]

/-- C15. Slot membership test is tri-state: `check_node(n, v)` is `-1`
exactly when `n` is `NULL`, `v` is `NULL` or `n` holds no value; on an occupied
node and a non-null value it is `1` if `value_cmp` reports the (copied) stored
value equal to `v` and `0` if not, which for a faithful copy and an equality
compare is `1` exactly on the stored value; the node handed to `check_node` is
unchanged by the call; and after `set_node_data(n, v)` returns `1`,
`check_node(n, v)` is `1`. -/
theorem check_node_tri_state {F : Callbacks α} (hF : Faithful F) (node : Option (Node α))
    (value : Value α) :
    (check_node F node value = -1 ↔
      (node = none ∨ value = none ∨ ∃ n, node = some n ∧ n.data = none)) ∧
    (∀ (n : Node α) (d v : α), node = some n → n.data = some d → value = some v →
      check_node F node value =
        (if F.value_cmp (F.value_cpy (some d)) (some v) = 1 then 1 else 0) ∧
      (d = v → check_node F node value = 1) ∧ (d ≠ v → check_node F node value = 0)) ∧
    (check_node_state F node value).1 = node ∧
    (check_node_state F node value).2 = check_node F node value ∧
    (∀ (n : Node α) (v : α), (set_node_data F n (some v)).2 = 1 →
      check_node F (some (set_node_data F n (some v)).1) (some v) = 1 ∧
      (set_node_data F n (some v)).1.hashCount = n.hashCount) := by
  refine ⟨check_node_eq_neg_one F node value, ?_, ?_, ?_, ?_⟩
  · rintro n d v rfl hd rfl
    have h := check_node_occupied F n d v hd
    refine ⟨h, ?_, ?_⟩
    · intro e
      rw [h, hF.cpy d, if_pos ((hF.cmp d v).mpr e)]
    · intro e
      rw [h, hF.cpy d, if_neg (fun c => e ((hF.cmp d v).mp c))]
  · rw [check_node_state_eq]
  · rw [check_node_state_eq]
  · intro n v _
    have hs : set_node_data F n (some v) = ({ n with data := some v }, 1) := by
      simp [set_node_data, hF.cpy v]
    rw [hs]
    exact ⟨(check_node_eq_one hF _ v).mpr ⟨_, rfl, rfl⟩, rfl⟩

/-- Witness of C15: a node holding 5 tested against 7. -/
theorem check_node_tri_state_witness :
    Faithful natCallbacks ∧
    ((check_node natCallbacks (some ⟨some 5, 2⟩) (some 7) = -1 ↔
      ((some ⟨some 5, 2⟩ : Option (Node Nat)) = none ∨ (some 7 : Value Nat) = none ∨
        ∃ n, (some ⟨some 5, 2⟩ : Option (Node Nat)) = some n ∧ n.data = none)) ∧
    (∀ (n : Node Nat) (d v : Nat), (some ⟨some 5, 2⟩ : Option (Node Nat)) = some n →
      n.data = some d → (some 7 : Value Nat) = some v →
      check_node natCallbacks (some ⟨some 5, 2⟩) (some 7) =
        (if natCallbacks.value_cmp (natCallbacks.value_cpy (some d)) (some v) = 1
          then 1 else 0) ∧
      (d = v → check_node natCallbacks (some ⟨some 5, 2⟩) (some 7) = 1) ∧
      (d ≠ v → check_node natCallbacks (some ⟨some 5, 2⟩) (some 7) = 0)) ∧
    (check_node_state natCallbacks (some ⟨some 5, 2⟩) (some 7)).1 = some ⟨some 5, 2⟩ ∧
    (check_node_state natCallbacks (some ⟨some 5, 2⟩) (some 7)).2 =
      check_node natCallbacks (some ⟨some 5, 2⟩) (some 7) ∧
    (∀ (n : Node Nat) (v : Nat), (set_node_data natCallbacks n (some v)).2 = 1 →
      check_node natCallbacks (some (set_node_data natCallbacks n (some v)).1) (some v) = 1 ∧
      (set_node_data natCallbacks n (some v)).1.hashCount = n.hashCount)) :=
  ⟨natCallbacks_faithful, check_node_tri_state natCallbacks_faithful (some ⟨some 5, 2⟩) (some 7)⟩

/-- C18. Bitmask modulo is true modulo: for a capacity `2 ^ k ≤ 2 ^ 31` and
every value `v`, `fixed_mod(v, capacity)` is `v & (capacity - 1)`, equals the
mathematical remainder `v mod capacity` and lies below the capacity; and the
remainder of a sum is the same after the sum wrapped around modulo `2 ^ 64`. -/
theorem fixed_mod_is_mod (k : Nat) (hk : k ≤ 31) (v : Nat) :
    fixed_mod v (2 ^ k) = v &&& (2 ^ k - 1) ∧ fixed_mod v (2 ^ k) = v % 2 ^ k ∧
      fixed_mod v (2 ^ k) < 2 ^ k ∧
      ∀ h t : Nat, fixed_mod ((h + t) % 2 ^ 64) (2 ^ k) = (h + t) % 2 ^ k := by
  have e : ∀ w, fixed_mod w (2 ^ k) = w % 2 ^ k := fun w => fixed_mod_pow k w hk
  refine ⟨?_, e v, ?_, ?_⟩
  · rw [e v, Nat.and_pow_two_sub_one_eq_mod]
  · rw [e v]; exact Nat.mod_lt _ (by positivity)
  · intro h t
    rw [e, Nat.mod_mod_of_dvd _ (Nat.pow_dvd_pow 2 (by omega))]

/-- Witness of C18: capacity 16, and a sum that wraps around `2 ^ 64`. -/
theorem fixed_mod_is_mod_witness :
    4 ≤ 31 ∧ (fixed_mod 37 (2 ^ 4) = 37 &&& (2 ^ 4 - 1) ∧ fixed_mod 37 (2 ^ 4) = 37 % 2 ^ 4 ∧
      fixed_mod 37 (2 ^ 4) < 2 ^ 4 ∧
      ∀ h t : Nat, fixed_mod ((h + t) % 2 ^ 64) (2 ^ 4) = (h + t) % 2 ^ 4) :=
  ⟨by decide, fixed_mod_is_mod 4 (by decide) 37⟩

theorem insert_place_all {F : Callbacks α} (hF : Faithful F) (s : HashSet α) (k : Nat)
    (hk : k ≤ 31) (hcap : s.capacity = 2 ^ k) (hlen : s.NodesList.length = s.capacity)
    (hfree : ∃ (q : Nat) (n : Node α), s.NodesList[q]? = some n ∧ n.data = none) (v : α) :
    ∃ (idx : Nat) (n : Node α), s.NodesList[idx]? = some n ∧ n.data = none ∧
      ∀ ins : HashSet α → Value α → Option (HashSet α × Int),
        insert_loop F ins (some v) (F.value_cpy (some v)) s.capacity 0 s =
          insert_finish F ins (put_data (incr_hash_count s (home F s.capacity v)) idx v) := by
  obtain ⟨q, n0, hq, hn0⟩ := hfree
  have hq2 : q < 2 ^ k := by
    have := (List.getElem?_eq_some_iff.mp hq).1
    rw [hlen, hcap] at this; exact this
  obtain ⟨i0, hi0, e0⟩ := probe_hits F k hk (some v) q hq2
  have hex : ∃ t, is_node_free s.NodesList[probe_idx F s.capacity (some v) t]? = 1 :=
    ⟨i0, by rw [hcap, e0]; exact (is_node_free_eq_one _).mpr ⟨n0, hq, hn0⟩⟩
  classical
  have hj := Nat.find_spec hex
  have hjle : Nat.find hex ≤ i0 :=
    Nat.find_min' hex (by rw [hcap, e0]; exact (is_node_free_eq_one _).mpr ⟨n0, hq, hn0⟩)
  have hjlt : Nat.find hex < s.capacity := by
    have h1 := hi0
    rw [← hcap] at h1
    exact lt_of_le_of_lt hjle h1
  have hocc : ∀ t, t < Nat.find hex →
      is_node_free s.NodesList[probe_idx F s.capacity (some v) t]? = 0 := by
    intro t ht
    have hnot := Nat.find_min hex ht
    have htk : t < 2 ^ k := lt_of_lt_of_le ht (le_trans hjle hi0.le)
    have hlt2 : probe_idx F s.capacity (some v) t < s.NodesList.length := by
      rw [hlen]
      have := probe_idx_lt F k hk (some v) t htk
      rw [hcap]; exact this
    rcases is_node_free_of_lt _ _ hlt2 with h | h
    · exact h
    · exact (hnot h).elim
  obtain ⟨n, hn, hd⟩ := (is_node_free_eq_one _).mp hj
  refine ⟨_, n, hn, hd, fun ins => ?_⟩
  have := insert_loop_head hF ins v s s.capacity (Nat.find hex) hjlt hocc hj
  rw [this]
  congr 3
  rw [hcap]; exact probe_idx_zero F k hk v

theorem insert_place_of_free {F : Callbacks α} (hF : Faithful F)
    (ins : HashSet α → Value α → Option (HashSet α × Int)) (s : HashSet α) (k : Nat)
    (hk : k ≤ 31) (hcap : s.capacity = 2 ^ k) (hlen : s.NodesList.length = s.capacity)
    (hfree : ∃ (q : Nat) (n : Node α), s.NodesList[q]? = some n ∧ n.data = none) (v : α) :
    ∃ (idx : Nat) (n : Node α), s.NodesList[idx]? = some n ∧ n.data = none ∧
      insert_loop F ins (some v) (F.value_cpy (some v)) s.capacity 0 s =
        insert_finish F ins (put_data (incr_hash_count s (home F s.capacity v)) idx v) := by
  obtain ⟨idx, n, hn, hd, h⟩ := insert_place_all hF s k hk hcap hlen hfree v
  exact ⟨idx, n, hn, hd, h ins⟩

theorem contains_loop_scans_all (F : Callbacks α) (s : HashSet α) (k : Nat) (hk : k ≤ 31)
    (hcap : s.capacity = 2 ^ k) (value : Value α) :
    contains_loop F s value s.capacity 0 = 1 ↔
      ∃ q, q < s.capacity ∧ check_node F s.NodesList[q]? value = 1 := by
  rw [contains_loop_eq_one]
  constructor
  · rintro ⟨j, _, hj, h⟩
    refine ⟨_, ?_, h⟩
    rw [hcap]
    exact probe_idx_lt F k hk value j (by rw [← hcap]; omega)
  · rintro ⟨q, hq, h⟩
    obtain ⟨i, hi, e⟩ := probe_hits F k hk value q (by rw [← hcap]; exact hq)
    refine ⟨i, Nat.zero_le _, by rw [hcap]; omega, ?_⟩
    rw [hcap, e]; exact h

/-- C19. The probe sequence covers the table: for a capacity `2 ^ k ≤ 2 ^ 31`
and any hash value, attempt `i ↦` probed slot is a bijection from the attempts
`[0, capacity)` onto the slots `[0, capacity)`.  Hence the loop of
`hash_set_contains_value` inspects every slot, and the loop of
`hash_set_insert` stores the value in an empty slot whenever one exists. -/
theorem probe_covers_table {F : Callbacks α} (hF : Faithful F) (k : Nat) (hk : k ≤ 31)
    (value : Value α) :
    Set.BijOn (probe_idx F (2 ^ k) value) (Set.Iio (2 ^ k)) (Set.Iio (2 ^ k)) ∧
    (∀ s : HashSet α, s.capacity = 2 ^ k →
      (contains_loop F s value s.capacity 0 = 1 ↔
        ∃ q, q < s.capacity ∧ check_node F s.NodesList[q]? value = 1)) ∧
    (∀ (ins : HashSet α → Value α → Option (HashSet α × Int)) (s : HashSet α) (v : α),
      s.capacity = 2 ^ k → s.NodesList.length = s.capacity →
      (∃ (q : Nat) (n : Node α), s.NodesList[q]? = some n ∧ n.data = none) →
      ∃ (idx : Nat) (n : Node α), s.NodesList[idx]? = some n ∧ n.data = none ∧
        insert_loop F ins (some v) (F.value_cpy (some v)) s.capacity 0 s =
          insert_finish F ins (put_data (incr_hash_count s (home F s.capacity v)) idx v)) := by
  refine ⟨⟨?_, ?_, ?_⟩, ?_, ?_⟩
  · intro i hi
    exact probe_idx_lt F k hk value i hi
  · intro i hi j hj e
    exact probe_idx_inj F k hk value i j hi hj e
  · intro q hq
    obtain ⟨i, hi, e⟩ := probe_hits F k hk value q hq
    exact ⟨i, hi, e⟩
  · intro s hcap
    exact contains_loop_scans_all F s k hk hcap value
  · intro ins s v hcap hlen hfree
    exact insert_place_of_free hF ins s k hk hcap hlen hfree v

/-- Witness of C19: capacity 16 and the probe sequence of the value 5. -/
theorem probe_covers_table_witness :
    Faithful natCallbacks ∧ 4 ≤ 31 ∧
    (Set.BijOn (probe_idx natCallbacks (2 ^ 4) (some 5)) (Set.Iio (2 ^ 4)) (Set.Iio (2 ^ 4)) ∧
    (∀ s : HashSet Nat, s.capacity = 2 ^ 4 →
      (contains_loop natCallbacks s (some 5) s.capacity 0 = 1 ↔
        ∃ q, q < s.capacity ∧ check_node natCallbacks s.NodesList[q]? (some 5) = 1)) ∧
    (∀ (ins : HashSet Nat → Value Nat → Option (HashSet Nat × Int)) (s : HashSet Nat) (v : Nat),
      s.capacity = 2 ^ 4 → s.NodesList.length = s.capacity →
      (∃ (q : Nat) (n : Node Nat), s.NodesList[q]? = some n ∧ n.data = none) →
      ∃ (idx : Nat) (n : Node Nat), s.NodesList[idx]? = some n ∧ n.data = none ∧
        insert_loop natCallbacks ins (some v) (natCallbacks.value_cpy (some v)) s.capacity 0 s =
          insert_finish natCallbacks ins
            (put_data (incr_hash_count s (home natCallbacks s.capacity v)) idx v))) :=
  ⟨natCallbacks_faithful, by decide,
    probe_covers_table natCallbacks_faithful 4 (by decide) (some 5)⟩

/-! ## Chain counters -/

theorem insert_grow_detail {F : Callbacks α} (hF : Faithful F) (s : HashSet α) (hI : Inv F s)
    (v : α) (hv : v ∉ stored s) (hsz : s.size + 1 < overflow_size)
    (hg : 3 * s.capacity ≤ 4 * (s.size + 1)) :
    ∃ (s3 : HashSet α) (k : Nat), k ≤ 31 ∧ Inv0 F s3 ∧ s3.capacity = s.capacity ∧
      s3.size = s.size + 1 ∧ (stored s3).Perm (v :: stored s) ∧
      (s3.capacity * HASH_SET_GROWTH_FACTOR) % 2 ^ 32 = 2 ^ k ∧ 2 ^ k = 2 * s.capacity ∧
      4 * s3.size < 3 * 2 ^ k ∧
      ∀ fuel, hash_set_insert F (fuel + 1) s (some v) =
        (resize_hashset F (hash_set_insert F fuel) s3
          ((s3.capacity * HASH_SET_GROWTH_FACTOR) % 2 ^ 32)).map (fun s4 => (s4, 1)) := by
  have hload := hI.load
  obtain ⟨k, hk, hcap⟩ := hI.pow
  have hfree : ∃ (q : Nat) (n : Node α), s.NodesList[q]? = some n ∧ n.data = none := by
    apply exists_none_of_filterMap_length_lt (fun n => n.data)
    have h1 := hI.size_eq
    have h2 := hI.len
    unfold stored at h1
    omega
  obtain ⟨idx, n, hn, hd, hloop⟩ := insert_place_all hF s k hk hcap hI.len hfree v
  have hc : hash_set_contains_value F s (some v) ≠ 1 := by
    rw [contains_of_not_mem hF s v hv]; decide
  obtain ⟨s3, hs3⟩ : ∃ s3 : HashSet α, s3 =
      { put_data (incr_hash_count s (home F s.capacity v)) idx v with size := s.size + 1 } :=
    ⟨_, rfl⟩
  obtain ⟨hI3, hp3, hc3, hz3⟩ := placed_inv0 s hI.toInv0 v hv idx n hn hd s3 hs3
  have hk1 : k + 1 ≤ 31 := by
    by_contra hcon
    have h31 : 2 ^ 31 ≤ 2 ^ k := Nat.pow_le_pow_right (by norm_num) (by omega)
    rw [hcap] at hg
    unfold overflow_size at hsz
    norm_num at h31 hsz
    omega
  have hpos : 0 < 2 ^ k := by positivity
  have hpow : 2 ^ (k + 1) = 2 * s.capacity := by rw [hcap, pow_succ]; omega
  have hnew : (s3.capacity * HASH_SET_GROWTH_FACTOR) % 2 ^ 32 = 2 ^ (k + 1) := by
    rw [hc3, hcap]
    show (2 ^ k * 2) % 2 ^ 32 = 2 ^ (k + 1)
    rw [← pow_succ]
    exact Nat.mod_eq_of_lt (Nat.pow_lt_pow_right (by norm_num) (by omega))
  have hcpos : 0 < s.capacity := by rw [hcap]; exact hpos
  have hl2 : 4 * (s.size + 1) < 3 * (2 * s.capacity) := by
    rcases (by omega : s.capacity = 1 ∨ 2 ≤ s.capacity) with h1 | h2
    · have : s.size = 0 := by omega
      omega
    · omega
  refine ⟨s3, k + 1, hk1, hI3, hc3, hz3, hp3, hnew, hpow, by rw [hz3, hpow]; exact hl2, ?_⟩
  intro fuel
  have hins : hash_set_insert F (fuel + 1) s (some v) =
      insert_finish F (hash_set_insert F fuel)
        (put_data (incr_hash_count s (home F s.capacity v)) idx v) := by
    show hash_set_insert_body F (hash_set_insert F fuel) s (some v) = _
    simp only [hash_set_insert_body, Option.isNone_some, Bool.false_eq_true,
      if_false, hc, hloop]
  rw [hins, insert_finish_eq F _ s _ s3 (by simp) hs3, if_pos (by rw [hc3, hz3]; exact hg)]
  rfl

theorem erase_shrink_detail {F : Callbacks α} (hF : Faithful F) (s : HashSet α) (hI : Inv F s)
    (v : α) (hv : v ∈ stored s) (hg : 4 * (s.size - 1) ≤ s.capacity) :
    ∃ (s3 : HashSet α) (k : Nat), k ≤ 31 ∧ Inv0 F s3 ∧ s3.capacity = s.capacity ∧
      s3.size + 1 = s.size ∧ (stored s).Perm (v :: stored s3) ∧
      s3.capacity / HASH_SET_GROWTH_FACTOR = 2 ^ k ∧ 2 * 2 ^ k = s.capacity ∧
      4 * s3.size < 3 * 2 ^ k ∧
      ∀ fuel, hash_set_erase F fuel s (some v) =
        (resize_hashset F (hash_set_insert F fuel) s3
          (s3.capacity / HASH_SET_GROWTH_FACTOR)).map (fun s4 => (s4, 1)) := by
  have hload := hI.load
  obtain ⟨k, hk, hcap⟩ := hI.pow
  have hc1 := contains_of_mem hF s hI.toInv0 v hv
  have hc : hash_set_contains_value F s (some v) ≠ 0 := by rw [hc1]; decide
  obtain ⟨q, m, hq, hd⟩ := (mem_stored s v).mp hv
  have hq2 : q < 2 ^ k := by
    have := (List.getElem?_eq_some_iff.mp hq).1
    rw [hI.len, hcap] at this; exact this
  obtain ⟨i0, hi0, e0⟩ := probe_hits F k hk (some v) q hq2
  have hex : ∃ t, check_node F s.NodesList[probe_idx F s.capacity (some v) t]? (some v) = 1 :=
    ⟨i0, by rw [hcap, e0]; exact (check_node_eq_one hF _ v).mpr ⟨m, hq, hd⟩⟩
  have hers : ∀ fuel j, j < s.capacity →
      (∀ t, t < j → check_node F s.NodesList[probe_idx F s.capacity (some v) t]? (some v) ≠ 1) →
      check_node F s.NodesList[probe_idx F s.capacity (some v) j]? (some v) = 1 →
      hash_set_erase F fuel s (some v) =
        erase_finish F (hash_set_insert F fuel) s
          (probe_idx F s.capacity (some v) j) (home F s.capacity v) := by
    intro fuel j hjlt hmiss hhit
    unfold hash_set_erase
    rw [if_neg (by simp), if_neg hc]
    show erase_loop F _ s (some v) _ s.capacity 0 = _
    rw [erase_loop_spec F _ s (some v) _ s.capacity 0 j (Nat.zero_le _)
      (by omega) (fun t _ ht => hmiss t ht) hhit]
    congr 1
    rw [hcap]; exact home_idx_eq F k hk v
  classical
  have hj := Nat.find_spec hex
  have hjle : Nat.find hex ≤ i0 :=
    Nat.find_min' hex (by rw [hcap, e0]; exact (check_node_eq_one hF _ v).mpr ⟨m, hq, hd⟩)
  obtain ⟨n, hn, hnd⟩ := (check_node_eq_one hF _ v).mp hj
  obtain ⟨s3, hs3⟩ : ∃ s3 : HashSet α, s3 =
      decr_hash_count { clear_data s (probe_idx F s.capacity (some v) (Nat.find hex)) with
        size := s.size - 1 } (home F s.capacity v) := ⟨_, rfl⟩
  obtain ⟨hI3, hp3, hc3, hz3⟩ := erased_inv0 s hI.toInv0 v _ n hn hnd s3 hs3
  have hsz : 1 ≤ s.size := by omega
  have hjlt : Nat.find hex < s.capacity := by
    have h1 := hi0
    rw [← hcap] at h1
    exact lt_of_le_of_lt hjle h1
  have hz3' : s3.size = s.size - 1 := by omega
  have hk0 : k ≠ 0 := by
    intro e
    rw [e] at hcap
    norm_num at hcap
    omega
  have hhalf : s.capacity / 2 = 2 ^ (k - 1) := by
    obtain ⟨k', rfl⟩ : ∃ k', k = k' + 1 := ⟨k - 1, by omega⟩
    rw [hcap, pow_succ]; simp
  have hpos : 0 < 2 ^ (k - 1) := by positivity
  have hdbl : s.capacity = 2 * 2 ^ (k - 1) := by
    obtain ⟨k', rfl⟩ : ∃ k', k = k' + 1 := ⟨k - 1, by omega⟩
    rw [hcap, pow_succ]; simp; ring
  refine ⟨s3, k - 1, by omega, hI3, hc3, hz3, hp3, ?_, hdbl.symm, by rw [hz3']; omega, ?_⟩
  · rw [hc3]; exact hhalf
  · intro fuel
    rw [hers fuel (Nat.find hex) hjlt (fun t ht => Nat.find_min hex ht) hj,
      erase_finish_eq F _ s _ _ s3 hs3, if_pos (by rw [hc3, hz3']; exact hg)]
    rfl

theorem contains_eq_of_perm {F : Callbacks α} (hF : Faithful F) (s s1 : HashSet α)
    (hI : Inv0 F s) (hI1 : Inv0 F s1) (hp : (stored s1).Perm (stored s)) (w : α) :
    hash_set_contains_value F s1 (some w) = hash_set_contains_value F s (some w) := by
  by_cases hw : w ∈ stored s
  · rw [contains_of_mem hF s hI w hw, contains_of_mem hF s1 hI1 w (hp.mem_iff.mpr hw)]
  · rw [contains_of_not_mem hF s w hw,
      contains_of_not_mem hF s1 w (fun h => hw (hp.mem_iff.mp h))]

theorem inserts_spec {F : Callbacks α} (hF : Faithful F) (fuel : Nat) :
    ∀ (vs : List α) (s : HashSet α), Inv F s → vs.Nodup → (∀ x, x ∈ vs → x ∉ stored s) →
      s.size + vs.length < overflow_size →
      ∃ s1, run_from F (fuel + 2) s (vs.map Op.insert) = some s1 ∧ Inv F s1 ∧
        s1.size = s.size + vs.length ∧
        s1.capacity = capacity_after_inserts vs.length s.size s.capacity ∧
        ∀ x, x ∈ stored s1 ↔ x ∈ vs ∨ x ∈ stored s := by
  intro vs
  induction vs with
  | nil =>
    intro s hI _ _ _
    exact ⟨s, rfl, hI, rfl, rfl, fun x => by simp⟩
  | cons y ys ih =>
    intro s hI hnd hdis hlen
    simp only [List.length_cons] at hlen
    obtain ⟨s1, h1, hI1, hp1, hz1, hc1⟩ :=
      insert_absent hF fuel s hI y (hdis y (List.mem_cons_self _ _)) (by omega)
    have hnd2 := List.nodup_cons.mp hnd
    obtain ⟨s2, h2, hI2, hz2, hc2, hm2⟩ := ih s1 hI1 hnd2.2
      (fun x hx hmem => by
        rcases List.mem_cons.mp (hp1.mem_iff.mp hmem) with e | e
        · exact hnd2.1 (e ▸ hx)
        · exact hdis x (List.mem_cons_of_mem _ hx) e)
      (by rw [hz1]; omega)
    refine ⟨s2, ?_, hI2, by rw [hz2, hz1, List.length_cons]; omega, ?_, ?_⟩
    · simp only [List.map_cons, run_from, step, h1, Option.map_some', Option.some_bind, h2]
    · rw [hc2, hz1, hc1]
      simp only [List.length_cons, capacity_after_inserts, HASH_SET_GROWTH_FACTOR,
        Nat.mul_comm 2 s.capacity]
    · intro x
      rw [hm2 x, hp1.mem_iff, List.mem_cons, List.mem_cons]
      tauto

theorem max_load_le_iff (n c : Nat) (hc : 0 < c) :
    HASH_SET_MAX_LOAD_FACTOR ≤ (n : ℚ) / (c : ℚ) ↔ 3 * c ≤ 4 * n := by
  unfold HASH_SET_MAX_LOAD_FACTOR
  have hq : (0 : ℚ) < c := by exact_mod_cast hc
  rw [le_div_iff₀ hq]
  constructor
  · intro h
    have : ((3 * c : Nat) : ℚ) ≤ ((4 * n : Nat) : ℚ) := by push_cast; linarith
    exact_mod_cast this
  · intro h
    have : ((3 * c : Nat) : ℚ) ≤ ((4 * n : Nat) : ℚ) := by exact_mod_cast h
    push_cast at this
    linarith

/-! ## The overflowed set

The growth of `hash_set_insert` computes `capacity * HASH_SET_GROWTH_FACTOR`
in `unsigned int`.  At capacity `2 ^ 31` the product wraps around to 0 and
`resize_hashset` leaves the set `overflowed`: capacity 0, size 0 and an array
of no nodes.  In that state every probe loop runs zero times, so
`hash_set_insert` and `hash_set_erase` return `0` and change nothing, and
`hash_set_contains_value` returns `0`.  The one read the code makes in that
state, `NodesList[idx2]->hashCount` in `hash_set_contains_value`, is outside
the array; the model takes the null-node path for it, and the result `0` of
`hash_set_contains_value` does not depend on the value read. -/

theorem contains_overflowed (F : Callbacks α) (value : Value α) :
    hash_set_contains_value F overflowed value = 0 := by
  unfold hash_set_contains_value
  split
  · rfl
  · simp only [overflowed, List.getElem?_nil, get_hash_count]
    rfl

theorem insert_overflowed (F : Callbacks α) (fuel : Nat) (value : Value α) :
    hash_set_insert F (fuel + 1) overflowed value = some (overflowed, 0) := by
  show hash_set_insert_body F (hash_set_insert F fuel) overflowed value = _
  unfold hash_set_insert_body
  split
  · rfl
  · rw [if_neg (by rw [contains_overflowed]; decide)]
    rfl

theorem erase_overflowed (F : Callbacks α) (fuel : Nat) (value : Value α) :
    hash_set_erase F fuel overflowed value = some (overflowed, 0) :=
  erase_absent F fuel overflowed value (contains_overflowed F value)

theorem clear_overflowed : hash_set_clear (overflowed : HashSet α) = overflowed := rfl

theorem rehash_overflowed (F : Callbacks α) (fuel : Nat) :
    ∀ vals : List (Value α),
      rehash (hash_set_insert F (fuel + 1)) overflowed vals = some overflowed := by
  intro vals
  induction vals with
  | nil => rfl
  | cons v rest ih =>
    simp only [rehash]
    split
    · exact ih
    · rw [insert_overflowed]
      exact ih

theorem resize_to_zero (F : Callbacks α) (fuel : Nat) (s : HashSet α) :
    resize_hashset F (hash_set_insert F (fuel + 1)) s 0 = some overflowed := by
  unfold resize_hashset
  exact rehash_overflowed F fuel _

theorem step_overflowed (F : Callbacks α) (fuel : Nat) (op : Op α) :
    step F (fuel + 1) overflowed op = some overflowed := by
  cases op with
  | insert v => simp only [step, insert_overflowed, Option.map_some']
  | erase v => simp only [step, erase_overflowed, Option.map_some']
  | clear => rfl

theorem run_from_overflowed (F : Callbacks α) (fuel : Nat) :
    ∀ ops : List (Op α), run_from F (fuel + 1) overflowed ops = some overflowed := by
  intro ops
  induction ops with
  | nil => rfl
  | cons op rest ih => simp only [run_from, step_overflowed, Option.some_bind, ih]

theorem inv_capacity_ne_overflowed {F : Callbacks α} {s : HashSet α} (hI : Inv0 F s) :
    s ≠ overflowed := by
  intro h
  have := inv_capacity_pos hI
  rw [h] at this
  exact absurd this (Nat.lt_irrefl 0)

theorem inv_size_lt {F : Callbacks α} {s : HashSet α} (hI : Inv F s) :
    s.size < overflow_size := by
  obtain ⟨k, hk, hcap⟩ := hI.pow
  have h31 : 2 ^ k ≤ 2 ^ 31 := Nat.pow_le_pow_right (by norm_num) hk
  have hl := hI.load
  rw [hcap] at hl
  unfold overflow_size
  norm_num at h31 ⊢
  omega

theorem insert_grow_eq {F : Callbacks α} (hF : Faithful F) (s : HashSet α) (hI : Inv F s)
    (v : α) (hv : v ∉ stored s) (hg : 3 * s.capacity ≤ 4 * (s.size + 1)) :
    ∃ s3 : HashSet α, Inv0 F s3 ∧ s3.capacity = s.capacity ∧ s3.size = s.size + 1 ∧
      (stored s3).Perm (v :: stored s) ∧
      ∀ fuel, hash_set_insert F (fuel + 1) s (some v) =
        (resize_hashset F (hash_set_insert F fuel) s3
          ((s3.capacity * HASH_SET_GROWTH_FACTOR) % 2 ^ 32)).map (fun s4 => (s4, 1)) := by
  have hload := hI.load
  obtain ⟨k, hk, hcap⟩ := hI.pow
  have hfree : ∃ (q : Nat) (n : Node α), s.NodesList[q]? = some n ∧ n.data = none := by
    apply exists_none_of_filterMap_length_lt (fun n => n.data)
    have h1 := hI.size_eq
    have h2 := hI.len
    unfold stored at h1
    omega
  obtain ⟨idx, n, hn, hd, hloop⟩ := insert_place_all hF s k hk hcap hI.len hfree v
  have hc : hash_set_contains_value F s (some v) ≠ 1 := by
    rw [contains_of_not_mem hF s v hv]; decide
  obtain ⟨s3, hs3⟩ : ∃ s3 : HashSet α, s3 =
      { put_data (incr_hash_count s (home F s.capacity v)) idx v with size := s.size + 1 } :=
    ⟨_, rfl⟩
  obtain ⟨hI3, hp3, hc3, hz3⟩ := placed_inv0 s hI.toInv0 v hv idx n hn hd s3 hs3
  refine ⟨s3, hI3, hc3, hz3, hp3, ?_⟩
  intro fuel
  have hins : hash_set_insert F (fuel + 1) s (some v) =
      insert_finish F (hash_set_insert F fuel)
        (put_data (incr_hash_count s (home F s.capacity v)) idx v) := by
    show hash_set_insert_body F (hash_set_insert F fuel) s (some v) = _
    simp only [hash_set_insert_body, Option.isNone_some, Bool.false_eq_true,
      if_false, hc, hloop]
  rw [hins, insert_finish_eq F _ s _ s3 (by simp) hs3, if_pos (by rw [hc3, hz3]; exact hg)]
  rfl

theorem capacity_of_full {F : Callbacks α} (s : HashSet α) (hI : Inv F s)
    (hsz : overflow_size ≤ s.size + 1) : s.capacity = 2 ^ 31 := by
  obtain ⟨k, hk, hcap⟩ := hI.pow
  have hl := hI.load
  rw [hcap] at hl
  rcases Nat.lt_or_ge k 31 with h | h
  · have h30 : 2 ^ k ≤ 2 ^ 30 := Nat.pow_le_pow_right (by norm_num) (by omega)
    unfold overflow_size at hsz
    norm_num at h30 hsz
    omega
  · have : k = 31 := by omega
    rw [hcap, this]

theorem insert_overflow {F : Callbacks α} (hF : Faithful F) (s : HashSet α)
    (hI : Inv F s) (v : α) (hv : v ∉ stored s) (hsz : overflow_size ≤ s.size + 1) :
    ∃ s3 : HashSet α, Inv0 F s3 ∧ s3.capacity = 2 ^ 31 ∧ s3.size = s.size + 1 ∧
      (stored s3).Perm (v :: stored s) ∧
      (s3.capacity * HASH_SET_GROWTH_FACTOR) % 2 ^ 32 = 0 ∧
      (∀ fuel, hash_set_insert F (fuel + 1) s (some v) =
        (resize_hashset F (hash_set_insert F fuel) s3
          ((s3.capacity * HASH_SET_GROWTH_FACTOR) % 2 ^ 32)).map (fun s4 => (s4, 1))) ∧
      ∀ fuel, hash_set_insert F (fuel + 2) s (some v) = some (overflowed, 1) := by
  have hcap := capacity_of_full s hI hsz
  have hg : 3 * s.capacity ≤ 4 * (s.size + 1) := by
    rw [hcap]
    unfold overflow_size at hsz
    norm_num at hsz ⊢
    omega
  obtain ⟨s3, hI3, hc3, hz3, hp3, hins⟩ := insert_grow_eq hF s hI v hv hg
  have hzero : (s3.capacity * HASH_SET_GROWTH_FACTOR) % 2 ^ 32 = 0 := by
    rw [hc3, hcap]
    decide
  refine ⟨s3, hI3, by rw [hc3, hcap], hz3, hp3, hzero, hins, ?_⟩
  intro fuel
  rw [hins (fuel + 1), hzero, resize_to_zero]
  rfl

/-! ## The mathematical set along a call sequence

The function `peak_card ops A` is the largest number of values the mathematical
set holds at any moment along the calls `ops`.  A call sequence on a fresh set
ends in a set that satisfies the invariant `Inv` and holds the values of the
mathematical set, unless `peak_card` reaches `overflow_size`, in which case it
ends in `overflowed` (`run_total`). -/

theorem card_le_peak_card [DecidableEq α] :
    ∀ (ops : List (Op α)) (A : Finset α), A.card ≤ peak_card ops A := by
  intro ops
  cases ops with
  | nil => intro A; exact le_rfl
  | cons op rest => intro A; exact le_max_left _ _

theorem peak_card_le [DecidableEq α] :
    ∀ (ops : List (Op α)) (A : Finset α), peak_card ops A ≤ A.card + ops.length := by
  intro ops
  induction ops with
  | nil => intro A; exact le_rfl
  | cons op rest ih =>
    intro A
    have h := ih (abstract_step A op)
    have hc : (abstract_step A op).card ≤ A.card + 1 := by
      cases op with
      | insert v => exact Finset.card_insert_le v A
      | erase v => exact le_trans (Finset.card_erase_le) (Nat.le_succ _)
      | clear => simp [abstract_step]
    simp only [peak_card, List.length_cons]
    exact max_le (by omega) (by omega)

theorem abstract_run_append [DecidableEq α] :
    ∀ (ops l : List (Op α)) (A : Finset α),
      abstract_run (ops ++ l) A = abstract_run l (abstract_run ops A) := by
  intro ops
  induction ops with
  | nil => intro l A; rfl
  | cons op rest ih => intro l A; exact ih l _

theorem peak_card_append [DecidableEq α] :
    ∀ (ops l : List (Op α)) (A : Finset α),
      peak_card (ops ++ l) A = max (peak_card ops A) (peak_card l (abstract_run ops A)) := by
  intro ops
  induction ops with
  | nil =>
    intro l A
    show peak_card l A = max A.card (peak_card l A)
    exact (max_eq_right (card_le_peak_card l A)).symm
  | cons op rest ih =>
    intro l A
    show max A.card (peak_card (rest ++ l) (abstract_step A op)) =
      max (max A.card (peak_card rest (abstract_step A op)))
        (peak_card l (abstract_run rest (abstract_step A op)))
    rw [ih, max_assoc]

theorem run_from_append (F : Callbacks α) (fuel : Nat) :
    ∀ (ops l : List (Op α)) (s : HashSet α),
      run_from F fuel s (ops ++ l) = (run_from F fuel s ops).bind (fun s1 => run_from F fuel s1 l) := by
  intro ops
  induction ops with
  | nil => intro l s; rfl
  | cons op rest ih =>
    intro l s
    show (step F fuel s op).bind (fun s1 => run_from F fuel s1 (rest ++ l)) =
      ((step F fuel s op).bind (fun s1 => run_from F fuel s1 rest)).bind
        (fun s1 => run_from F fuel s1 l)
    cases step F fuel s op with
    | none => rfl
    | some s1 => exact ih l s1

theorem card_eq_size [DecidableEq α] {F : Callbacks α} {s : HashSet α} (hI : Inv0 F s)
    (A : Finset α) (hA : ∀ x, x ∈ stored s ↔ x ∈ A) : A.card = s.size := by
  have hset : (stored s).toFinset = A := by
    ext x
    rw [List.mem_toFinset]
    exact hA x
  rw [hI.size_eq, ← hset, List.toFinset_card_of_nodup hI.nodup]

theorem step_total [DecidableEq α] {F : Callbacks α} (hF : Faithful F) (fuel : Nat)
    (s : HashSet α) (hI : Inv F s) (A : Finset α) (hA : ∀ x, x ∈ stored s ↔ x ∈ A)
    (op : Op α) :
    ∃ s1, step F (fuel + 2) s op = some s1 ∧
      ((Inv F s1 ∧ ∀ x, x ∈ stored s1 ↔ x ∈ abstract_step A op) ∨
        (s1 = overflowed ∧ overflow_size ≤ (abstract_step A op).card)) := by
  cases op with
  | insert v =>
    by_cases hv : v ∈ stored s
    · refine ⟨s, ?_, Or.inl ⟨hI, ?_⟩⟩
      · simp only [step]
        rw [insert_present F (fuel + 1) s (some v) (contains_of_mem hF s hI.toInv0 v hv)]
        rfl
      · intro x
        simp only [abstract_step, Finset.mem_insert, ← hA]
        constructor
        · exact fun h => Or.inr h
        · rintro (rfl | h)
          · exact hv
          · exact h
    · by_cases hsz : s.size + 1 < overflow_size
      · obtain ⟨s1, h1, hI1, hp1, hz1, _⟩ := insert_absent hF fuel s hI v hv hsz
        refine ⟨s1, ?_, Or.inl ⟨hI1, ?_⟩⟩
        · simp only [step, h1]; rfl
        · intro x
          simp only [abstract_step, Finset.mem_insert, ← hA, hp1.mem_iff, List.mem_cons]
      · obtain ⟨_, _, _, _, _, _, _, hov⟩ := insert_overflow hF s hI v hv (by omega)
        refine ⟨overflowed, ?_, Or.inr ⟨rfl, ?_⟩⟩
        · simp only [step, hov fuel]; rfl
        · have hvA : v ∉ A := fun h => hv ((hA v).mpr h)
          simp only [abstract_step]
          rw [Finset.card_insert_of_not_mem hvA, card_eq_size hI.toInv0 A hA]
          omega
  | erase v =>
    by_cases hv : v ∈ stored s
    · obtain ⟨s1, h1, hI1, hp1, hz1, _⟩ := erase_present hF (fuel + 1) s hI v hv
      have hnd : (v :: stored s1).Nodup := hp1.nodup_iff.mp hI.nodup
      have hvn : v ∉ stored s1 := (List.nodup_cons.mp hnd).1
      refine ⟨s1, ?_, Or.inl ⟨hI1, ?_⟩⟩
      · simp only [step, h1]; rfl
      · intro x
        simp only [abstract_step, Finset.mem_erase, ← hA, hp1.mem_iff, List.mem_cons]
        constructor
        · intro h
          exact ⟨fun e => hvn (e ▸ h), Or.inr h⟩
        · rintro ⟨hne, rfl | h⟩
          · exact (hne rfl).elim
          · exact h
    · refine ⟨s, ?_, Or.inl ⟨hI, ?_⟩⟩
      · simp only [step]
        rw [erase_absent F (fuel + 2) s (some v) (contains_of_not_mem hF s v hv)]
        rfl
      · intro x
        simp only [abstract_step, Finset.mem_erase, ← hA]
        constructor
        · intro h
          exact ⟨fun e => hv (e ▸ h), h⟩
        · exact fun h => h.2
  | clear =>
    refine ⟨hash_set_clear s, rfl, Or.inl ⟨clear_inv s hI.toInv0, ?_⟩⟩
    intro x
    simp [abstract_step, stored_clear]

theorem run_from_total [DecidableEq α] {F : Callbacks α} (hF : Faithful F) (fuel : Nat) :
    ∀ (ops : List (Op α)) (s : HashSet α) (A : Finset α), Inv F s →
      (∀ x, x ∈ stored s ↔ x ∈ A) →
      ∃ s1, run_from F (fuel + 2) s ops = some s1 ∧
        ((Inv F s1 ∧ ∀ x, x ∈ stored s1 ↔ x ∈ abstract_run ops A) ∨
          (s1 = overflowed ∧ overflow_size ≤ peak_card ops A)) := by
  intro ops
  induction ops with
  | nil =>
    intro s A hI hA
    exact ⟨s, rfl, Or.inl ⟨hI, hA⟩⟩
  | cons op rest ih =>
    intro s A hI hA
    obtain ⟨s1, h1, hcase⟩ := step_total hF fuel s hI A hA op
    rcases hcase with ⟨hI1, hA1⟩ | ⟨rfl, hov⟩
    · obtain ⟨s2, h2, hcase2⟩ := ih s1 (abstract_step A op) hI1 hA1
      refine ⟨s2, by simp only [run_from, h1, Option.some_bind, h2], ?_⟩
      rcases hcase2 with h | ⟨e, hov⟩
      · exact Or.inl h
      · exact Or.inr ⟨e, le_trans hov (le_max_right _ _)⟩
    · refine ⟨overflowed, ?_, Or.inr ⟨rfl, ?_⟩⟩
      · simp only [run_from, h1, Option.some_bind]
        exact run_from_overflowed F (fuel + 1) rest
      · exact le_trans hov (le_trans (card_le_peak_card rest _) (le_max_right _ _))

theorem run_total [DecidableEq α] {F : Callbacks α} (hF : Faithful F) (fuel : Nat)
    (hfuel : 2 ≤ fuel) (ops : List (Op α)) :
    ∃ s, run F fuel ops = some s ∧
      ((Inv F s ∧ ∀ x, x ∈ stored s ↔ x ∈ abstract_run ops ∅) ∨
        (s = overflowed ∧ overflow_size ≤ peak_card ops ∅)) := by
  obtain ⟨f, rfl⟩ : ∃ f, fuel = f + 2 := ⟨fuel - 2, by omega⟩
  exact run_from_total hF f ops hash_set_alloc ∅ (alloc_inv F)
    (fun x => by
      have : stored (hash_set_alloc : HashSet α) = [] := stored_node_list_alloc _ _
      simp [this])

theorem run_small [DecidableEq α] {F : Callbacks α} (hF : Faithful F) (fuel : Nat)
    (hfuel : 2 ≤ fuel) (ops : List (Op α)) (hsmall : peak_card ops ∅ < overflow_size) :
    ∃ s, run F fuel ops = some s ∧ Inv F s ∧
      (∀ x, x ∈ stored s ↔ x ∈ abstract_run ops ∅) ∧
      s.size = (abstract_run ops ∅).card := by
  obtain ⟨s, hs, hcase⟩ := run_total hF fuel hfuel ops
  rcases hcase with ⟨hI, hA⟩ | ⟨_, hov⟩
  · exact ⟨s, hs, hI, hA, (card_eq_size hI.toInv0 _ hA).symm⟩
  · omega

theorem run_cases {F : Callbacks α} (hF : Faithful F) (fuel : Nat) (hfuel : 2 ≤ fuel)
    (ops : List (Op α)) : ∃ s, run F fuel ops = some s ∧ (Inv F s ∨ s = overflowed) := by
  classical
  obtain ⟨s, hs, hcase⟩ := run_total hF fuel hfuel ops
  rcases hcase with ⟨hI, _⟩ | ⟨e, _⟩
  · exact ⟨s, hs, Or.inl hI⟩
  · exact ⟨s, hs, Or.inr e⟩

theorem run_then_insert [DecidableEq α] {F : Callbacks α} (hF : Faithful F) (fuel : Nat)
    (hfuel : 2 ≤ fuel) (ops : List (Op α)) (v : α)
    (hsmall : peak_card (ops ++ [Op.insert v]) ∅ < overflow_size) :
    ∃ s, run F fuel ops = some s ∧ Inv F s ∧
      (∀ x, x ∈ stored s ↔ x ∈ abstract_run ops ∅) ∧
      (v ∉ stored s → s.size + 1 < overflow_size) := by
  rw [peak_card_append] at hsmall
  obtain ⟨s, hs, hI, hA, hz⟩ := run_small hF fuel hfuel ops
    (lt_of_le_of_lt (le_max_left _ _) hsmall)
  refine ⟨s, hs, hI, hA, fun hv => ?_⟩
  have h2 : peak_card [Op.insert v] (abstract_run ops ∅) < overflow_size :=
    lt_of_le_of_lt (le_max_right _ _) hsmall
  have h3 : (insert v (abstract_run ops ∅)).card ≤
      peak_card [Op.insert v] (abstract_run ops ∅) := le_max_right _ _
  rw [Finset.card_insert_of_not_mem (fun h => hv ((hA v).mpr h))] at h3
  omega

/-- A call sequence that ends in a set satisfying the invariant never held
`overflow_size` values at once. -/
theorem run_from_peak [DecidableEq α] {F : Callbacks α} (hF : Faithful F) (fuel : Nat) :
    ∀ (ops : List (Op α)) (s : HashSet α) (A : Finset α), Inv F s →
      (∀ x, x ∈ stored s ↔ x ∈ A) →
      ∀ s1, run_from F (fuel + 2) s ops = some s1 → Inv F s1 →
        peak_card ops A < overflow_size := by
  intro ops
  induction ops with
  | nil =>
    intro s A hI hA s1 _ _
    show A.card < overflow_size
    rw [card_eq_size hI.toInv0 A hA]
    exact inv_size_lt hI
  | cons op rest ih =>
    intro s A hI hA s1 h1 hI1
    have hcard : A.card < overflow_size := by
      rw [card_eq_size hI.toInv0 A hA]
      exact inv_size_lt hI
    obtain ⟨s2, h2, hcase⟩ := step_total hF fuel s hI A hA op
    have hrun : run_from F (fuel + 2) s2 rest = some s1 := by
      have h := h1
      simp only [run_from, h2, Option.some_bind] at h
      exact h
    rcases hcase with ⟨hI2, hA2⟩ | ⟨rfl, _⟩
    · exact max_lt hcard (ih s2 (abstract_step A op) hI2 hA2 s1 hrun hI1)
    · rw [run_from_overflowed F (fuel + 1) rest] at hrun
      exact absurd (Option.some.inj hrun).symm (inv_capacity_ne_overflowed hI1.toInv0)

/-- The capacity has wrapped around to 0 at the end of a call sequence on a
fresh set exactly when the mathematical set held `overflow_size` values at
some point of the sequence. -/
theorem run_overflowed_iff [DecidableEq α] {F : Callbacks α} (hF : Faithful F) (fuel : Nat)
    (hfuel : 2 ≤ fuel) (ops : List (Op α)) :
    run F fuel ops = some overflowed ↔ overflow_size ≤ peak_card ops ∅ := by
  obtain ⟨s, hs, hcase⟩ := run_total hF fuel hfuel ops
  constructor
  · intro h
    obtain rfl : s = overflowed := Option.some.inj (hs.symm.trans h)
    rcases hcase with ⟨hI, _⟩ | ⟨_, hov⟩
    · exact absurd rfl (inv_capacity_ne_overflowed hI.toInv0)
    · exact hov
  · intro hov
    rcases hcase with ⟨hI, _⟩ | ⟨rfl, _⟩
    · obtain ⟨f, rfl⟩ : ∃ f, fuel = f + 2 := ⟨fuel - 2, by omega⟩
      have hlt := run_from_peak hF f ops hash_set_alloc ∅ (alloc_inv F)
        (fun x => by
          have : stored (hash_set_alloc : HashSet α) = [] := stored_node_list_alloc _ _
          simp [this]) s hs hI
      omega
    · exact hs

/-! ## The call sequence that overflows the capacity

Inserting `overflow_size - 1 = 1610612735` pairwise distinct values into a
fresh set gives capacity `2 ^ 31`; the next insert of an absent value meets the
growth test with `1610612736 / 2 ^ 31 = 0.75` and requests capacity
`2 ^ 32 mod 2 ^ 32 = 0`. -/

theorem mem_abstract_run_inserts [DecidableEq α] :
    ∀ (vs : List α) (A : Finset α) (x : α),
      x ∈ abstract_run (vs.map Op.insert) A ↔ x ∈ vs ∨ x ∈ A := by
  intro vs
  induction vs with
  | nil => intro A x; simp [abstract_run]
  | cons y ys ih =>
    intro A x
    show x ∈ abstract_run (ys.map Op.insert) (insert y A) ↔ _
    rw [ih, Finset.mem_insert, List.mem_cons]
    tauto

theorem card_abstract_run_inserts [DecidableEq α] (vs : List α) (hnd : vs.Nodup) :
    (abstract_run (vs.map Op.insert) ∅).card = vs.length := by
  have hset : abstract_run (vs.map Op.insert) ∅ = vs.toFinset := by
    ext x
    rw [mem_abstract_run_inserts, List.mem_toFinset]
    simp
  rw [hset, List.toFinset_card_of_nodup hnd]

theorem run_before_overflow {F : Callbacks α} (hF : Faithful F) (fuel : Nat) (hfuel : 2 ≤ fuel)
    (vs : List α) (hnd : vs.Nodup) (hlen : vs.length + 1 = overflow_size) :
    ∃ s, run F fuel (vs.map Op.insert) = some s ∧ Inv F s ∧ s.size = vs.length ∧
      s.capacity = 2 ^ 31 ∧ ∀ x, x ∈ stored s ↔ x ∈ vs := by
  classical
  have hpk : peak_card (vs.map Op.insert) (∅ : Finset α) < overflow_size := by
    have := peak_card_le (vs.map Op.insert) (∅ : Finset α)
    rw [List.length_map, Finset.card_empty] at this
    omega
  obtain ⟨s, hs, hI, hA, hz⟩ := run_small hF fuel hfuel _ hpk
  rw [card_abstract_run_inserts vs hnd] at hz
  refine ⟨s, hs, hI, hz, capacity_of_full s hI (by omega), ?_⟩
  intro x
  rw [hA x, mem_abstract_run_inserts]
  simp

theorem run_overflow {F : Callbacks α} (hF : Faithful F) (fuel : Nat) (hfuel : 2 ≤ fuel)
    (vs : List α) (hnd : vs.Nodup) (hlen : vs.length = overflow_size) :
    run F fuel (vs.map Op.insert) = some overflowed := by
  classical
  obtain ⟨s, hs, hcase⟩ := run_total hF fuel hfuel (vs.map Op.insert)
  rcases hcase with ⟨hI, hA⟩ | ⟨e, _⟩
  · have hz := card_eq_size hI.toInv0 _ hA
    rw [card_abstract_run_inserts vs hnd] at hz
    have := inv_size_lt hI
    omega
  · rw [hs, e]

theorem nat_run_before_overflow :
    ∃ s, run natCallbacks 2 ((List.range 1610612735).map Op.insert) = some s ∧
      Inv natCallbacks s ∧ s.size = 1610612735 ∧ s.capacity = 2 ^ 31 ∧
      1610612735 ∉ stored s := by
  obtain ⟨s, hs, hI, hz, hc, hm⟩ := run_before_overflow natCallbacks_faithful 2 (le_refl 2)
    (List.range 1610612735) (List.nodup_range _)
    (by rw [List.length_range]; rfl)
  refine ⟨s, hs, hI, by rw [hz, List.length_range], hc, ?_⟩
  rw [hm]
  exact List.not_mem_range_self

theorem nat_run_overflow :
    run natCallbacks 2 ((List.range 1610612736).map Op.insert) = some overflowed :=
  run_overflow natCallbacks_faithful 2 (le_refl 2) (List.range 1610612736)
    (List.nodup_range _) (by rw [List.length_range]; rfl)

/-! ## Claims that hold after every call sequence

In the theorems below a *reachable* set is the result `s` of
`run F fuel ops = some s`: the calls `ops` applied to a freshly allocated set,
for any list `ops`.  `Faithful F` states the assumptions of the claims on the
callbacks (copying never fails, `value_cmp` is equality), and the recursion
budget `fuel` is at least 2. -/

/-- C1, counterexample.  After the values `0, …, 1610612734` were inserted
(capacity `2 ^ 31`), `hash_set_insert` of the absent `1610612735` returns and
`hash_set_contains_value` of that value is `0` afterwards. -/
theorem insert_then_contains_fails :
    ∃ s s1 r, run natCallbacks 2 ((List.range 1610612735).map Op.insert) = some s ∧
      hash_set_insert natCallbacks 2 s (some 1610612735) = some (s1, r) ∧
      hash_set_contains_value natCallbacks s1 (some 1610612735) = 0 := by
  obtain ⟨s, hs, hI, hz, _, hv⟩ := nat_run_before_overflow
  obtain ⟨_, _, _, _, _, _, _, hov⟩ :=
    insert_overflow natCallbacks_faithful s hI 1610612735 hv (by rw [hz]; decide)
  exact ⟨s, overflowed, 1, hs, hov 0, contains_overflowed natCallbacks _⟩

/-- C1, amended.  Round trip insert/contains: for every call sequence `ops` on
a fresh set and every non-null value `v` such that fewer than `3 * 2 ^ 29`
values are stored at any one time along `ops` followed by the insert of `v`,
`hash_set_insert(s, v)` returns on the set `s` reached by `ops` (whatever flag,
with or without a resize) and afterwards `hash_set_contains_value(s, v)` is
`1`. -/
theorem insert_then_contains [DecidableEq α] {F : Callbacks α} (hF : Faithful F) (fuel : Nat)
    (hfuel : 2 ≤ fuel) (ops : List (Op α)) (v : α)
    (hsmall : peak_card (ops ++ [Op.insert v]) ∅ < overflow_size) :
    ∃ s s1 r, run F fuel ops = some s ∧ hash_set_insert F fuel s (some v) = some (s1, r) ∧
      hash_set_contains_value F s1 (some v) = 1 := by
  obtain ⟨s, hs, hI, _, hz⟩ := run_then_insert hF fuel hfuel ops v hsmall
  obtain ⟨f, rfl⟩ : ∃ f, fuel = f + 2 := ⟨fuel - 2, by omega⟩
  by_cases hv : v ∈ stored s
  · have hc := contains_of_mem hF s hI.toInv0 v hv
    exact ⟨s, s, 0, hs, insert_present F (f + 1) s (some v) hc, hc⟩
  · obtain ⟨s1, h1, hI1, hp1, _⟩ := insert_absent hF f s hI v hv (hz hv)
    exact ⟨s, s1, 1, hs, h1,
      contains_of_mem hF s1 hI1.toInv0 v (hp1.mem_iff.mpr (List.mem_cons_self _ _))⟩

/-- Witness of C1, amended: inserting 5 after inserting 21 (same primary
slot). -/
theorem insert_then_contains_witness :
    Faithful natCallbacks ∧ 2 ≤ 2 ∧
      peak_card ([Op.insert 21] ++ [Op.insert 5]) ∅ < overflow_size ∧
      ∃ s s1 r, run natCallbacks 2 [Op.insert 21] = some s ∧
        hash_set_insert natCallbacks 2 s (some 5) = some (s1, r) ∧
        hash_set_contains_value natCallbacks s1 (some 5) = 1 :=
  ⟨natCallbacks_faithful, le_refl 2, by decide,
    insert_then_contains natCallbacks_faithful 2 (le_refl 2) [Op.insert 21] 5 (by decide)⟩

/-- C5, counterexample.  After the 1610612736 values `0, …, 1610612735` were
inserted into a fresh set, the value 0 belongs to the abstract set and
`hash_set_contains_value` reports it absent, and the abstract set has
1610612736 elements while `size` is 0. -/
theorem simulates_finite_set_fails :
    ∃ s, run natCallbacks 2 ((List.range 1610612736).map Op.insert) = some s ∧
      0 ∈ abstract_run ((List.range 1610612736).map Op.insert) ∅ ∧
      hash_set_contains_value natCallbacks s (some 0) = 0 ∧
      (abstract_run ((List.range 1610612736).map Op.insert) (∅ : Finset Nat)).card =
        1610612736 ∧
      s.size = 0 := by
  refine ⟨overflowed, nat_run_overflow, ?_, contains_overflowed natCallbacks _, ?_, rfl⟩
  · have h0 : 0 ∈ List.range 1610612736 := List.mem_range.mpr (by norm_num)
    rw [mem_abstract_run_inserts (List.range 1610612736) ∅ 0]
    exact Or.inl h0
  · exact (card_abstract_run_inserts (List.range 1610612736) (List.nodup_range _)).trans
      (List.length_range _)

/-- C5, amended.  The hash set simulates a mathematical finite set: after any
call sequence on a fresh set along which fewer than `3 * 2 ^ 29` values are
stored at any one time, `hash_set_contains_value(s, v)` is `1` exactly for the
members `v` of the abstract set obtained by the same calls from the empty set
(and `0` for every other value), and `size` is the cardinality of that set.  In
particular a never-inserted `c` with the primary position of stored `a` and `b`
is reported absent while `a` and `b` are reported present. -/
theorem simulates_finite_set [DecidableEq α] {F : Callbacks α} (hF : Faithful F) (fuel : Nat)
    (hfuel : 2 ≤ fuel) (ops : List (Op α)) (hsmall : peak_card ops ∅ < overflow_size) :
    ∃ s, run F fuel ops = some s ∧
      (∀ v, hash_set_contains_value F s (some v) = if v ∈ abstract_run ops ∅ then 1 else 0) ∧
      s.size = (abstract_run ops ∅).card ∧
      (∀ a b c, a ∈ abstract_run ops ∅ → b ∈ abstract_run ops ∅ → c ∉ abstract_run ops ∅ →
        home F s.capacity c = home F s.capacity a → home F s.capacity c = home F s.capacity b →
        hash_set_contains_value F s (some a) = 1 ∧ hash_set_contains_value F s (some b) = 1 ∧
          hash_set_contains_value F s (some c) = 0) := by
  obtain ⟨s, hs, hI, hA, hcard⟩ := run_small hF fuel hfuel ops hsmall
  have hcont : ∀ v, hash_set_contains_value F s (some v) =
      if v ∈ abstract_run ops ∅ then 1 else 0 := by
    intro v
    by_cases hv : v ∈ abstract_run ops ∅
    · rw [if_pos hv]
      exact contains_of_mem hF s hI.toInv0 v ((hA v).mpr hv)
    · rw [if_neg hv]
      exact contains_of_not_mem hF s v (fun h => hv ((hA v).mp h))
  refine ⟨s, hs, hcont, hcard, ?_⟩
  intro a b c ha hb hc _ _
  rw [hcont a, hcont b, hcont c, if_pos ha, if_pos hb, if_neg hc]
  exact ⟨rfl, rfl, rfl⟩

/-- Witness of C5, amended: 5 and 21 stored in the same primary slot, 37 never
inserted, 53 inserted and erased. -/
theorem simulates_finite_set_witness :
    Faithful natCallbacks ∧ 2 ≤ 2 ∧
      peak_card [Op.insert 5, Op.insert 21, Op.insert 53, Op.erase 53] ∅ < overflow_size ∧
      ∃ s, run natCallbacks 2 [Op.insert 5, Op.insert 21, Op.insert 53, Op.erase 53] = some s ∧
        (∀ v, hash_set_contains_value natCallbacks s (some v) =
          if v ∈ abstract_run [Op.insert 5, Op.insert 21, Op.insert 53, Op.erase 53] ∅
          then 1 else 0) ∧
        s.size = (abstract_run [Op.insert 5, Op.insert 21, Op.insert 53, Op.erase 53] ∅).card ∧
        (∀ a b c, a ∈ abstract_run [Op.insert 5, Op.insert 21, Op.insert 53, Op.erase 53] ∅ →
          b ∈ abstract_run [Op.insert 5, Op.insert 21, Op.insert 53, Op.erase 53] ∅ →
          c ∉ abstract_run [Op.insert 5, Op.insert 21, Op.insert 53, Op.erase 53] ∅ →
          home natCallbacks s.capacity c = home natCallbacks s.capacity a →
          home natCallbacks s.capacity c = home natCallbacks s.capacity b →
          hash_set_contains_value natCallbacks s (some a) = 1 ∧
            hash_set_contains_value natCallbacks s (some b) = 1 ∧
            hash_set_contains_value natCallbacks s (some c) = 0) :=
  ⟨natCallbacks_faithful, le_refl 2, by decide,
    simulates_finite_set natCallbacks_faithful 2 (le_refl 2)
      [Op.insert 5, Op.insert 21, Op.insert 53, Op.erase 53] (by decide)⟩

/-- C7, counterexample.  After the 1610612736 values `0, …, 1610612735` were
inserted into a fresh set the capacity is 0, which is no power of two. -/
theorem capacity_power_of_two_fails :
    ∃ s, run natCallbacks 2 ((List.range 1610612736).map Op.insert) = some s ∧
      s.capacity = 0 ∧ ¬ ∃ k, s.capacity = 2 ^ k := by
  refine ⟨overflowed, nat_run_overflow, rfl, ?_⟩
  rintro ⟨k, hk⟩
  have h0 : (0 : Nat) = 2 ^ k := hk
  have hpos : 0 < 2 ^ k := pow_pos (by decide) k
  omega

/-- C7, amended.  Capacity invariant: after any call sequence on a fresh set
along which fewer than `3 * 2 ^ 29` values are stored at any one time, the
capacity is a power of two; in particular it is never 0, however often
`hash_set_erase` shrinks the table. -/
theorem capacity_power_of_two [DecidableEq α] {F : Callbacks α} (hF : Faithful F)
    (fuel : Nat) (hfuel : 2 ≤ fuel) (ops : List (Op α))
    (hsmall : peak_card ops ∅ < overflow_size) :
    ∃ s, run F fuel ops = some s ∧ (∃ k, s.capacity = 2 ^ k) ∧ s.capacity ≠ 0 := by
  obtain ⟨s, hs, hI, _⟩ := run_small hF fuel hfuel ops hsmall
  obtain ⟨k, _, hcap⟩ := hI.pow
  exact ⟨s, hs, ⟨k, hcap⟩, by rw [hcap]; positivity⟩

/-- Witness of C7, amended: repeated insert and erase of one value shrinks the
table from 16 slots down to a single slot, and the capacity stays a power of
two. -/
theorem capacity_power_of_two_witness :
    Faithful natCallbacks ∧ 2 ≤ 2 ∧
      peak_card [Op.insert 1, Op.erase 1, Op.insert 1, Op.erase 1, Op.insert 1, Op.erase 1,
        Op.insert 1, Op.erase 1, Op.insert 1, Op.erase 1] ∅ < overflow_size ∧
      ∃ s, run natCallbacks 2
          [Op.insert 1, Op.erase 1, Op.insert 1, Op.erase 1, Op.insert 1, Op.erase 1,
            Op.insert 1, Op.erase 1, Op.insert 1, Op.erase 1] = some s ∧
        (∃ k, s.capacity = 2 ^ k) ∧ s.capacity ≠ 0 :=
  ⟨natCallbacks_faithful, le_refl 2, by decide,
    capacity_power_of_two natCallbacks_faithful 2 (le_refl 2) _ (by decide)⟩

/-- C8, counterexample.  After the values `0, …, 1610612734` were inserted
(capacity `2 ^ 31`), `hash_set_insert` of the absent `1610612735` returns with
size 0 and capacity 0: `size / capacity` is `0 / 0`, which is not below the max
load factor (nor is `4 * size < 3 * capacity`). -/
theorem load_factor_below_max_fails :
    ∃ s s1 r, run natCallbacks 2 ((List.range 1610612735).map Op.insert) = some s ∧
      hash_set_insert natCallbacks 2 s (some 1610612735) = some (s1, r) ∧
      s1.size = 0 ∧ s1.capacity = 0 ∧ ¬ 4 * s1.size < 3 * s1.capacity := by
  obtain ⟨s, hs, hI, hz, _, hv⟩ := nat_run_before_overflow
  obtain ⟨_, _, _, _, _, _, _, hov⟩ :=
    insert_overflow natCallbacks_faithful s hI 1610612735 hv (by rw [hz]; decide)
  exact ⟨s, overflowed, 1, hs, hov 0, rfl, rfl, Nat.lt_irrefl 0⟩

/-- C8, amended.  Load factor upper bound: let `s` be the set reached by a
call sequence `ops` on a fresh set and `v` a non-null value.  If fewer than
`3 * 2 ^ 29` values are stored at any one time along `ops` followed by the
insert of `v`, then `hash_set_insert(s, v)` returns, and if that holds along
`ops`, then `hash_set_erase(s, v)` returns; after either of them the capacity
is not 0 and `size / capacity` is strictly below the max load factor `0.75`. -/
theorem load_factor_below_max [DecidableEq α] {F : Callbacks α} (hF : Faithful F)
    (fuel : Nat) (hfuel : 2 ≤ fuel) (ops : List (Op α)) (v : α) :
    ∃ s, run F fuel ops = some s ∧
      (peak_card (ops ++ [Op.insert v]) ∅ < overflow_size →
        ∃ s1 r, hash_set_insert F fuel s (some v) = some (s1, r) ∧ s1.capacity ≠ 0 ∧
          hash_set_get_load_factor s1 < HASH_SET_MAX_LOAD_FACTOR) ∧
      (peak_card ops ∅ < overflow_size →
        ∃ s1 r, hash_set_erase F fuel s (some v) = some (s1, r) ∧ s1.capacity ≠ 0 ∧
          hash_set_get_load_factor s1 < HASH_SET_MAX_LOAD_FACTOR) := by
  obtain ⟨s, hs, _⟩ := run_cases hF fuel hfuel ops
  refine ⟨s, hs, fun hsmall => ?_, fun hsmall => ?_⟩
  · obtain ⟨s0, hs0, hI, _, hz⟩ := run_then_insert hF fuel hfuel ops v hsmall
    obtain rfl : s = s0 := Option.some.inj (hs.symm.trans hs0)
    obtain ⟨f, rfl⟩ : ∃ f, fuel = f + 2 := ⟨fuel - 2, by omega⟩
    by_cases hv : v ∈ stored s
    · exact ⟨s, 0, insert_present F (f + 1) s (some v) (contains_of_mem hF s hI.toInv0 v hv),
        Nat.pos_iff_ne_zero.mp (inv_capacity_pos hI.toInv0), load_lt_max_of_inv hI⟩
    · obtain ⟨s1, h1, hI1, _⟩ := insert_absent hF f s hI v hv (hz hv)
      exact ⟨s1, 1, h1, Nat.pos_iff_ne_zero.mp (inv_capacity_pos hI1.toInv0),
        load_lt_max_of_inv hI1⟩
  · obtain ⟨s0, hs0, hI, _⟩ := run_small hF fuel hfuel ops hsmall
    obtain rfl : s = s0 := Option.some.inj (hs.symm.trans hs0)
    obtain ⟨f, rfl⟩ : ∃ f, fuel = f + 1 := ⟨fuel - 1, by omega⟩
    obtain ⟨s2, r2, h2, hI2, _⟩ := erase_spec hF f s hI v
    exact ⟨s2, r2, h2, Nat.pos_iff_ne_zero.mp (inv_capacity_pos hI2.toInv0),
      load_lt_max_of_inv hI2⟩

/-- Witness of C8, amended: inserting and erasing 5 on the set holding 21 and
5. -/
theorem load_factor_below_max_witness :
    Faithful natCallbacks ∧ 2 ≤ 2 ∧
      peak_card ([Op.insert 21, Op.insert 5] ++ [Op.insert 5]) ∅ < overflow_size ∧
      peak_card [Op.insert 21, Op.insert 5] ∅ < overflow_size ∧
      (∃ s, run natCallbacks 2 [Op.insert 21, Op.insert 5] = some s ∧
        (peak_card ([Op.insert 21, Op.insert 5] ++ [Op.insert 5]) ∅ < overflow_size →
          ∃ s1 r, hash_set_insert natCallbacks 2 s (some 5) = some (s1, r) ∧
            s1.capacity ≠ 0 ∧ hash_set_get_load_factor s1 < HASH_SET_MAX_LOAD_FACTOR) ∧
        (peak_card [Op.insert 21, Op.insert 5] ∅ < overflow_size →
          ∃ s1 r, hash_set_erase natCallbacks 2 s (some 5) = some (s1, r) ∧
            s1.capacity ≠ 0 ∧ hash_set_get_load_factor s1 < HASH_SET_MAX_LOAD_FACTOR)) :=
  ⟨natCallbacks_faithful, le_refl 2, by decide, by decide,
    load_factor_below_max natCallbacks_faithful 2 (le_refl 2) [Op.insert 21, Op.insert 5] 5⟩

/-- C13, counterexample.  After the values `0, …, 1610612734` were inserted
(size 1610612735), the value `1610612735` is not contained,
`hash_set_insert` of it returns, and the size afterwards is 0, not the size
before plus one. -/
theorem insert_absent_succeeds_fails :
    ∃ s s1 r, run natCallbacks 2 ((List.range 1610612735).map Op.insert) = some s ∧
      hash_set_contains_value natCallbacks s (some 1610612735) = 0 ∧
      hash_set_insert natCallbacks 2 s (some 1610612735) = some (s1, r) ∧
      s.size = 1610612735 ∧ s1.size = 0 ∧ s1.size ≠ s.size + 1 := by
  obtain ⟨s, hs, hI, hz, _, hv⟩ := nat_run_before_overflow
  obtain ⟨_, _, _, _, _, _, _, hov⟩ :=
    insert_overflow natCallbacks_faithful s hI 1610612735 hv (by rw [hz]; decide)
  refine ⟨s, overflowed, 1, hs, contains_of_not_mem natCallbacks_faithful s _ hv, hov 0, hz,
    rfl, ?_⟩
  show 0 ≠ s.size + 1
  omega

/-- C13, amended.  Insert of an absent value succeeds: for every call sequence
`ops` on a fresh set and every non-null `v` such that fewer than `3 * 2 ^ 29`
values are stored at any one time along `ops` followed by the insert of `v`,
`hash_set_insert(s, v)` returns on the set `s` reached by `ops`; the flag is
`1` exactly when `hash_set_contains_value(s, v)` was `0`, and in that case the
size grows by exactly one (the probe loop reaches an empty slot and never falls
through to the final `return 0`). -/
theorem insert_absent_succeeds [DecidableEq α] {F : Callbacks α} (hF : Faithful F)
    (fuel : Nat) (hfuel : 2 ≤ fuel) (ops : List (Op α)) (v : α)
    (hsmall : peak_card (ops ++ [Op.insert v]) ∅ < overflow_size) :
    ∃ s s1 r, run F fuel ops = some s ∧ hash_set_insert F fuel s (some v) = some (s1, r) ∧
      (r = 1 ↔ hash_set_contains_value F s (some v) = 0) ∧
      (hash_set_contains_value F s (some v) = 0 → r = 1 ∧ s1.size = s.size + 1) ∧
      (hash_set_contains_value F s (some v) = 1 → r = 0 ∧ s1 = s) := by
  obtain ⟨s, hs, hI, _, hz⟩ := run_then_insert hF fuel hfuel ops v hsmall
  obtain ⟨f, rfl⟩ : ∃ f, fuel = f + 2 := ⟨fuel - 2, by omega⟩
  by_cases hv : v ∈ stored s
  · have hc := contains_of_mem hF s hI.toInv0 v hv
    refine ⟨s, s, 0, hs, insert_present F (f + 1) s (some v) hc, ?_, ?_, ?_⟩
    · rw [hc]; decide
    · rw [hc]; intro h; exact absurd h (by decide)
    · exact fun _ => ⟨rfl, rfl⟩
  · have hc := contains_of_not_mem hF s v hv
    obtain ⟨s1, h1, _, _, hz1, _⟩ := insert_absent hF f s hI v hv (hz hv)
    refine ⟨s, s1, 1, hs, h1, ?_, ?_, ?_⟩
    · rw [hc]; decide
    · exact fun _ => ⟨rfl, hz1⟩
    · rw [hc]; intro h; exact absurd h (by decide)

/-- Witness of C13, amended: inserting the absent 5 after 21, which occupies
the primary slot of 5. -/
theorem insert_absent_succeeds_witness :
    Faithful natCallbacks ∧ 2 ≤ 2 ∧
      peak_card ([Op.insert 21] ++ [Op.insert 5]) ∅ < overflow_size ∧
      hash_set_contains_value natCallbacks
        ((run natCallbacks 2 [Op.insert 21]).getD hash_set_alloc) (some 5) = 0 ∧
      ∃ s s1 r, run natCallbacks 2 [Op.insert 21] = some s ∧
        hash_set_insert natCallbacks 2 s (some 5) = some (s1, r) ∧
        (r = 1 ↔ hash_set_contains_value natCallbacks s (some 5) = 0) ∧
        (hash_set_contains_value natCallbacks s (some 5) = 0 → r = 1 ∧ s1.size = s.size + 1) ∧
        (hash_set_contains_value natCallbacks s (some 5) = 1 → r = 0 ∧ s1 = s) :=
  ⟨natCallbacks_faithful, le_refl 2, by decide, by decide,
    insert_absent_succeeds natCallbacks_faithful 2 (le_refl 2) [Op.insert 21] 5 (by decide)⟩

/-- C12, counterexample.  After the values `0, …, 1610612734` were inserted
(capacity `2 ^ 31`), `hash_set_insert` of the absent `1610612735` meets the
growth test and resizes the set `s3` that holds all 1610612736 values; the
resize returns a set of size 0 that no longer contains `1610612735`. -/
theorem resize_preserves_contents_fails :
    ∃ s s3 s4, run natCallbacks 2 ((List.range 1610612735).map Op.insert) = some s ∧
      hash_set_contains_value natCallbacks s (some 1610612735) = 0 ∧
      3 * s.capacity ≤ 4 * (s.size + 1) ∧
      Inv0 natCallbacks s3 ∧ (stored s3).Perm (1610612735 :: stored s) ∧
      s3.size = s.size + 1 ∧ s3.capacity = s.capacity ∧
      hash_set_insert natCallbacks 2 s (some 1610612735) =
        (resize_hashset natCallbacks (hash_set_insert natCallbacks 1) s3
          ((s3.capacity * HASH_SET_GROWTH_FACTOR) % 2 ^ 32)).map (fun s4 => (s4, 1)) ∧
      resize_hashset natCallbacks (hash_set_insert natCallbacks 1) s3
        ((s3.capacity * HASH_SET_GROWTH_FACTOR) % 2 ^ 32) = some s4 ∧
      s3.size = 1610612736 ∧ s4.size = 0 ∧
      hash_set_contains_value natCallbacks s3 (some 1610612735) = 1 ∧
      hash_set_contains_value natCallbacks s4 (some 1610612735) = 0 := by
  obtain ⟨s, hs, hI, hz, hcap, hv⟩ := nat_run_before_overflow
  obtain ⟨s3, hI3, hc3, hz3, hp3, hnew, hins, _⟩ :=
    insert_overflow natCallbacks_faithful s hI 1610612735 hv (by rw [hz]; decide)
  refine ⟨s, s3, overflowed, hs, contains_of_not_mem natCallbacks_faithful s _ hv,
    by rw [hcap, hz]; norm_num, hI3, hp3, hz3, hc3.trans hcap.symm, hins 1, ?_,
    by rw [hz3, hz], rfl, ?_, contains_overflowed natCallbacks _⟩
  · rw [hnew]
    exact resize_to_zero natCallbacks 0 s3
  · exact contains_of_mem natCallbacks_faithful s3 hI3 _
      (hp3.mem_iff.mpr (List.mem_cons_self _ _))

/-- C12, amended.  Resize preserves the contents: let `s` be the set reached
by a call sequence `ops` on a fresh set.  When `hash_set_insert(s, v)` of an
absent `v` meets the growth test (`3 * capacity ≤ 4 * (size + 1)`, i.e. load
factor at least `0.75`) and fewer than `3 * 2 ^ 29` values are stored at any
one time along `ops` followed by that insert, the call is the resize of the set
`s3` that holds `v` to `capacity * 2`; when `hash_set_erase(s, v)` of a present
`v` meets the shrink test (`4 * (size - 1) ≤ capacity`, i.e. load factor at
most `0.25`), the call is the resize of the set `s3` without `v` to
`capacity / 2`.  In both cases `resize_hashset` returns, the capacity is the
requested one, the size is the size before the resize, and
`hash_set_contains_value` gives the same result for every value as just before
the resize; so every value contained before the call (other than an erased one)
is still contained. -/
theorem resize_preserves_contents [DecidableEq α] {F : Callbacks α} (hF : Faithful F)
    (fuel : Nat) (hfuel : 2 ≤ fuel) (ops : List (Op α)) (v : α) :
    ∃ s, run F fuel ops = some s ∧
      (peak_card (ops ++ [Op.insert v]) ∅ < overflow_size →
        hash_set_contains_value F s (some v) = 0 → 3 * s.capacity ≤ 4 * (s.size + 1) →
        ∃ s3 s4, s3.size = s.size + 1 ∧ s3.capacity = s.capacity ∧
          hash_set_insert F fuel s (some v) =
            (resize_hashset F (hash_set_insert F (fuel - 1)) s3
              ((s3.capacity * HASH_SET_GROWTH_FACTOR) % 2 ^ 32)).map (fun s4 => (s4, 1)) ∧
          resize_hashset F (hash_set_insert F (fuel - 1)) s3
            ((s3.capacity * HASH_SET_GROWTH_FACTOR) % 2 ^ 32) = some s4 ∧
          s4.capacity = (s3.capacity * HASH_SET_GROWTH_FACTOR) % 2 ^ 32 ∧
          s4.capacity = s3.capacity * HASH_SET_GROWTH_FACTOR ∧
          s4.size = s3.size ∧
          (∀ w : α, hash_set_contains_value F s4 (some w) =
            hash_set_contains_value F s3 (some w)) ∧
          (∀ w : α, hash_set_contains_value F s (some w) = 1 →
            hash_set_contains_value F s4 (some w) = 1) ∧
          hash_set_contains_value F s4 (some v) = 1) ∧
      (hash_set_contains_value F s (some v) = 1 → 4 * (s.size - 1) ≤ s.capacity →
        ∃ s3 s4, s3.size + 1 = s.size ∧ s3.capacity = s.capacity ∧
          hash_set_erase F fuel s (some v) =
            (resize_hashset F (hash_set_insert F fuel) s3
              (s3.capacity / HASH_SET_GROWTH_FACTOR)).map (fun s4 => (s4, 1)) ∧
          resize_hashset F (hash_set_insert F fuel) s3
            (s3.capacity / HASH_SET_GROWTH_FACTOR) = some s4 ∧
          s4.capacity = s3.capacity / HASH_SET_GROWTH_FACTOR ∧
          s4.size = s3.size ∧
          (∀ w : α, hash_set_contains_value F s4 (some w) =
            hash_set_contains_value F s3 (some w)) ∧
          (∀ w : α, w ≠ v → hash_set_contains_value F s (some w) = 1 →
            hash_set_contains_value F s4 (some w) = 1)) := by
  obtain ⟨s, hs, hcase⟩ := run_cases hF fuel hfuel ops
  refine ⟨s, hs, ?_, ?_⟩
  · intro hsmall hc hg
    obtain ⟨s0, hs0, hI, _, hz0⟩ := run_then_insert hF fuel hfuel ops v hsmall
    obtain rfl : s = s0 := Option.some.inj (hs.symm.trans hs0)
    obtain ⟨f, rfl⟩ : ∃ f, fuel = f + 2 := ⟨fuel - 2, by omega⟩
    have hv : v ∉ stored s := fun h => by
      rw [contains_of_mem hF s hI.toInv0 v h] at hc
      exact absurd hc (by decide)
    obtain ⟨s3, k, hk, hI3, hc3, hz3, hp3, hnew, hpow, hl3, hins⟩ :=
      insert_grow_detail hF s hI v hv (hz0 hv) hg
    obtain ⟨s4, h4, hI4, hp4, hc4, hz4⟩ := resize_spec hF f s3 hI3 k hk hl3
    have hfu : f + 2 - 1 = f + 1 := by omega
    rw [hfu]
    refine ⟨s3, s4, hz3, hc3, hins (f + 1), by rw [hnew]; exact h4, by rw [hnew]; exact hc4,
      ?_, hz4, contains_eq_of_perm hF s3 s4 hI3 hI4 hp4, ?_, ?_⟩
    · rw [hc4, hpow, hc3]
      show 2 * s.capacity = s.capacity * 2
      omega
    · intro w hw
      have hws := mem_stored_of_contains hF s w hw
      exact contains_of_mem hF s4 hI4 w
        (hp4.mem_iff.mpr (hp3.mem_iff.mpr (List.mem_cons_of_mem _ hws)))
    · exact contains_of_mem hF s4 hI4 v
        (hp4.mem_iff.mpr (hp3.mem_iff.mpr (List.mem_cons_self _ _)))
  · intro hc hg
    rcases hcase with hI | rfl
    · obtain ⟨f, rfl⟩ : ∃ f, fuel = f + 2 := ⟨fuel - 2, by omega⟩
      have hv := mem_stored_of_contains hF s v hc
      obtain ⟨s3, k, hk, hI3, hc3, hz3, hp3, hnew, _, hl3, hers⟩ :=
        erase_shrink_detail hF s hI v hv hg
      obtain ⟨s4, h4, hI4, hp4, hc4, hz4⟩ := resize_spec hF (f + 1) s3 hI3 k hk hl3
      refine ⟨s3, s4, hz3, hc3, hers (f + 2), by rw [hnew]; exact h4, by rw [hnew]; exact hc4,
        hz4, contains_eq_of_perm hF s3 s4 hI3 hI4 hp4, ?_⟩
      intro w hne hw
      have hws := mem_stored_of_contains hF s w hw
      rcases List.mem_cons.mp (hp3.mem_iff.mp hws) with e | e
      · exact (hne e).elim
      · exact contains_of_mem hF s4 hI4 w (hp4.mem_iff.mpr e)
    · rw [contains_overflowed] at hc
      exact absurd hc (by decide)

/-- Witness of C12, amended: inserting the absent 11 into the set holding
`0, …, 10` meets the growth test (12 values in 16 slots), and erasing 1 from
the set holding 5 and 1 meets the shrink test. -/
theorem resize_preserves_contents_witness :
    Faithful natCallbacks ∧ 2 ≤ 2 ∧
      peak_card ([Op.insert 0, Op.insert 1, Op.insert 2, Op.insert 3, Op.insert 4, Op.insert 5,
        Op.insert 6, Op.insert 7, Op.insert 8, Op.insert 9, Op.insert 10] ++ [Op.insert 11]) ∅ < overflow_size ∧
      hash_set_contains_value natCallbacks
        ((run natCallbacks 2 [Op.insert 0, Op.insert 1, Op.insert 2, Op.insert 3, Op.insert 4, Op.insert 5,
        Op.insert 6, Op.insert 7, Op.insert 8, Op.insert 9, Op.insert 10]).getD hash_set_alloc) (some 11) = 0 ∧
      3 * ((run natCallbacks 2 [Op.insert 0, Op.insert 1, Op.insert 2, Op.insert 3, Op.insert 4, Op.insert 5,
        Op.insert 6, Op.insert 7, Op.insert 8, Op.insert 9, Op.insert 10]).getD hash_set_alloc).capacity ≤
        4 * (((run natCallbacks 2 [Op.insert 0, Op.insert 1, Op.insert 2, Op.insert 3, Op.insert 4, Op.insert 5,
        Op.insert 6, Op.insert 7, Op.insert 8, Op.insert 9, Op.insert 10]).getD hash_set_alloc).size + 1) ∧
      hash_set_contains_value natCallbacks
        ((run natCallbacks 2 [Op.insert 5, Op.insert 1]).getD hash_set_alloc) (some 1) = 1 ∧
      4 * (((run natCallbacks 2 [Op.insert 5, Op.insert 1]).getD hash_set_alloc).size - 1) ≤
        ((run natCallbacks 2 [Op.insert 5, Op.insert 1]).getD hash_set_alloc).capacity ∧
      (∃ s, run natCallbacks 2 [Op.insert 0, Op.insert 1, Op.insert 2, Op.insert 3, Op.insert 4, Op.insert 5,
              Op.insert 6, Op.insert 7, Op.insert 8, Op.insert 9, Op.insert 10] = some s ∧
        (peak_card ([Op.insert 0, Op.insert 1, Op.insert 2, Op.insert 3, Op.insert 4, Op.insert 5,
              Op.insert 6, Op.insert 7, Op.insert 8, Op.insert 9, Op.insert 10] ++ [Op.insert 11]) ∅ < overflow_size →
          hash_set_contains_value natCallbacks s (some 11) = 0 → 3 * s.capacity ≤ 4 * (s.size + 1) →
          ∃ s3 s4, s3.size = s.size + 1 ∧ s3.capacity = s.capacity ∧
            hash_set_insert natCallbacks 2 s (some 11) =
              (resize_hashset natCallbacks (hash_set_insert natCallbacks (2 - 1)) s3
                ((s3.capacity * HASH_SET_GROWTH_FACTOR) % 2 ^ 32)).map (fun s4 => (s4, 1)) ∧
            resize_hashset natCallbacks (hash_set_insert natCallbacks (2 - 1)) s3
              ((s3.capacity * HASH_SET_GROWTH_FACTOR) % 2 ^ 32) = some s4 ∧
            s4.capacity = (s3.capacity * HASH_SET_GROWTH_FACTOR) % 2 ^ 32 ∧
            s4.capacity = s3.capacity * HASH_SET_GROWTH_FACTOR ∧
            s4.size = s3.size ∧
            (∀ w : Nat, hash_set_contains_value natCallbacks s4 (some w) =
              hash_set_contains_value natCallbacks s3 (some w)) ∧
            (∀ w : Nat, hash_set_contains_value natCallbacks s (some w) = 1 →
              hash_set_contains_value natCallbacks s4 (some w) = 1) ∧
            hash_set_contains_value natCallbacks s4 (some 11) = 1) ∧
        (hash_set_contains_value natCallbacks s (some 11) = 1 → 4 * (s.size - 1) ≤ s.capacity →
          ∃ s3 s4, s3.size + 1 = s.size ∧ s3.capacity = s.capacity ∧
            hash_set_erase natCallbacks 2 s (some 11) =
              (resize_hashset natCallbacks (hash_set_insert natCallbacks 2) s3
                (s3.capacity / HASH_SET_GROWTH_FACTOR)).map (fun s4 => (s4, 1)) ∧
            resize_hashset natCallbacks (hash_set_insert natCallbacks 2) s3
              (s3.capacity / HASH_SET_GROWTH_FACTOR) = some s4 ∧
            s4.capacity = s3.capacity / HASH_SET_GROWTH_FACTOR ∧
            s4.size = s3.size ∧
            (∀ w : Nat, hash_set_contains_value natCallbacks s4 (some w) =
              hash_set_contains_value natCallbacks s3 (some w)) ∧
            (∀ w : Nat, w ≠ 11 → hash_set_contains_value natCallbacks s (some w) = 1 →
              hash_set_contains_value natCallbacks s4 (some w) = 1))) ∧
      (∃ s, run natCallbacks 2 [Op.insert 5, Op.insert 1] = some s ∧
        (peak_card ([Op.insert 5, Op.insert 1] ++ [Op.insert 1]) ∅ < overflow_size →
          hash_set_contains_value natCallbacks s (some 1) = 0 → 3 * s.capacity ≤ 4 * (s.size + 1) →
          ∃ s3 s4, s3.size = s.size + 1 ∧ s3.capacity = s.capacity ∧
            hash_set_insert natCallbacks 2 s (some 1) =
              (resize_hashset natCallbacks (hash_set_insert natCallbacks (2 - 1)) s3
                ((s3.capacity * HASH_SET_GROWTH_FACTOR) % 2 ^ 32)).map (fun s4 => (s4, 1)) ∧
            resize_hashset natCallbacks (hash_set_insert natCallbacks (2 - 1)) s3
              ((s3.capacity * HASH_SET_GROWTH_FACTOR) % 2 ^ 32) = some s4 ∧
            s4.capacity = (s3.capacity * HASH_SET_GROWTH_FACTOR) % 2 ^ 32 ∧
            s4.capacity = s3.capacity * HASH_SET_GROWTH_FACTOR ∧
            s4.size = s3.size ∧
            (∀ w : Nat, hash_set_contains_value natCallbacks s4 (some w) =
              hash_set_contains_value natCallbacks s3 (some w)) ∧
            (∀ w : Nat, hash_set_contains_value natCallbacks s (some w) = 1 →
              hash_set_contains_value natCallbacks s4 (some w) = 1) ∧
            hash_set_contains_value natCallbacks s4 (some 1) = 1) ∧
        (hash_set_contains_value natCallbacks s (some 1) = 1 → 4 * (s.size - 1) ≤ s.capacity →
          ∃ s3 s4, s3.size + 1 = s.size ∧ s3.capacity = s.capacity ∧
            hash_set_erase natCallbacks 2 s (some 1) =
              (resize_hashset natCallbacks (hash_set_insert natCallbacks 2) s3
                (s3.capacity / HASH_SET_GROWTH_FACTOR)).map (fun s4 => (s4, 1)) ∧
            resize_hashset natCallbacks (hash_set_insert natCallbacks 2) s3
              (s3.capacity / HASH_SET_GROWTH_FACTOR) = some s4 ∧
            s4.capacity = s3.capacity / HASH_SET_GROWTH_FACTOR ∧
            s4.size = s3.size ∧
            (∀ w : Nat, hash_set_contains_value natCallbacks s4 (some w) =
              hash_set_contains_value natCallbacks s3 (some w)) ∧
            (∀ w : Nat, w ≠ 1 → hash_set_contains_value natCallbacks s (some w) = 1 →
              hash_set_contains_value natCallbacks s4 (some w) = 1))) :=
  ⟨natCallbacks_faithful, le_refl 2, by decide, by decide!, by decide!, by decide!, by decide!,
    resize_preserves_contents natCallbacks_faithful 2 (le_refl 2)
      [Op.insert 0, Op.insert 1, Op.insert 2, Op.insert 3, Op.insert 4, Op.insert 5,
        Op.insert 6, Op.insert 7, Op.insert 8, Op.insert 9, Op.insert 10] 11,
    resize_preserves_contents natCallbacks_faithful 2 (le_refl 2) [Op.insert 5, Op.insert 1] 1⟩

/-- C14, counterexample.  After the values `0, …, 1610612734` were inserted
(size `n = 1610612735`, capacity `c = 2 ^ 31`), the absent `1610612735` is
inserted with `(n + 1) / c` equal to the max load factor, and the capacity
afterwards is 0, not `c * growth factor`. -/
theorem growth_trigger_fails :
    ∃ s s1, run natCallbacks 2 ((List.range 1610612735).map Op.insert) = some s ∧
      hash_set_contains_value natCallbacks s (some 1610612735) = 0 ∧
      hash_set_insert natCallbacks 2 s (some 1610612735) = some (s1, 1) ∧
      HASH_SET_MAX_LOAD_FACTOR ≤ ((s.size + 1 : Nat) : ℚ) / (s.capacity : ℚ) ∧
      s1.capacity = 0 ∧ s1.capacity ≠ s.capacity * HASH_SET_GROWTH_FACTOR := by
  obtain ⟨s, hs, hI, hz, hcap, hv⟩ := nat_run_before_overflow
  obtain ⟨_, _, _, _, _, _, _, hov⟩ :=
    insert_overflow natCallbacks_faithful s hI 1610612735 hv (by rw [hz]; decide)
  refine ⟨s, overflowed, hs, contains_of_not_mem natCallbacks_faithful s _ hv, hov 0,
    (max_load_le_iff _ _ (inv_capacity_pos hI.toInv0)).mpr (by rw [hcap, hz]; norm_num),
    rfl, ?_⟩
  show 0 ≠ s.capacity * 2
  rw [hcap]
  norm_num

/-- C14, amended.  Growth trigger: let `s`, with size `n` and capacity `c`, be
the set reached by a call sequence `ops` on a fresh set and `v` an absent
non-null value such that fewer than `3 * 2 ^ 29` values are stored at any one
time along `ops` followed by the insert of `v`; then `hash_set_insert(s, v)`
returns `1` and leaves the capacity at `c * growth factor` if `(n + 1) / c` is
at least the max load factor and at `c` otherwise.  Scenario: inserting 13
pairwise distinct values into a fresh set ends with capacity 32, size 13 and
all 13 values contained, for any hash function. -/
theorem growth_trigger [DecidableEq α] {F : Callbacks α} (hF : Faithful F) (fuel : Nat)
    (hfuel : 2 ≤ fuel) (ops : List (Op α)) (v : α) :
    (∃ s, run F fuel ops = some s ∧
      (peak_card (ops ++ [Op.insert v]) ∅ < overflow_size →
        hash_set_contains_value F s (some v) = 0 →
        ∃ s1, hash_set_insert F fuel s (some v) = some (s1, 1) ∧
          s1.capacity =
            if HASH_SET_MAX_LOAD_FACTOR ≤ ((s.size + 1 : Nat) : ℚ) / (s.capacity : ℚ)
            then s.capacity * HASH_SET_GROWTH_FACTOR else s.capacity)) ∧
    (∀ vs : List α, vs.Nodup → vs.length = 13 →
      ∃ s13, run F fuel (vs.map Op.insert) = some s13 ∧ s13.capacity = 32 ∧ s13.size = 13 ∧
        ∀ x, x ∈ vs → hash_set_contains_value F s13 (some x) = 1) := by
  constructor
  · obtain ⟨s, hs, _⟩ := run_cases hF fuel hfuel ops
    refine ⟨s, hs, fun hsmall hc => ?_⟩
    obtain ⟨s0, hs0, hI, _, hz0⟩ := run_then_insert hF fuel hfuel ops v hsmall
    obtain rfl : s = s0 := Option.some.inj (hs.symm.trans hs0)
    obtain ⟨f, rfl⟩ : ∃ f, fuel = f + 2 := ⟨fuel - 2, by omega⟩
    have hv : v ∉ stored s := fun h => by
      rw [contains_of_mem hF s hI.toInv0 v h] at hc
      exact absurd hc (by decide)
    obtain ⟨s1, h1, _, _, _, hc1⟩ := insert_absent hF f s hI v hv (hz0 hv)
    refine ⟨s1, h1, ?_⟩
    rw [hc1]
    by_cases hg : 3 * s.capacity ≤ 4 * (s.size + 1)
    · rw [if_pos hg, if_pos ((max_load_le_iff _ _ (inv_capacity_pos hI.toInv0)).mpr hg)]
      show 2 * s.capacity = s.capacity * 2
      omega
    · rw [if_neg hg,
        if_neg (fun h => hg ((max_load_le_iff _ _ (inv_capacity_pos hI.toInv0)).mp h))]
  · intro vs hnd hl
    obtain ⟨f, rfl⟩ : ∃ f, fuel = f + 2 := ⟨fuel - 2, by omega⟩
    have hst : stored (hash_set_alloc : HashSet α) = [] := stored_node_list_alloc _ _
    obtain ⟨s1, h1, hI1, hz1, hc1, hm1⟩ := inserts_spec hF f vs hash_set_alloc (alloc_inv F)
      hnd (fun x _ => by rw [hst]; exact List.not_mem_nil _)
      (by rw [hl]; show 0 + 13 < overflow_size; decide)
    refine ⟨s1, h1, ?_, ?_, ?_⟩
    · rw [hc1, hl]
      show capacity_after_inserts 13 0 16 = 32
      decide
    · rw [hz1, hl]
      show 0 + 13 = 13
      rfl
    · intro x hx
      exact contains_of_mem hF s1 hI1.toInv0 x ((hm1 x).mpr (Or.inl hx))

/-- Witness of C14, amended: inserting the absent 11 into the set holding
`0, …, 10` (12 values in 16 slots: the capacity doubles), inserting the absent
3 into the set holding 1 and 2 (the capacity stays), and the scenario for every
list of 13 distinct machine words. -/
theorem growth_trigger_witness :
    Faithful natCallbacks ∧ 2 ≤ 2 ∧
      peak_card ([Op.insert 0, Op.insert 1, Op.insert 2, Op.insert 3, Op.insert 4, Op.insert 5,
        Op.insert 6, Op.insert 7, Op.insert 8, Op.insert 9, Op.insert 10] ++ [Op.insert 11]) ∅ < overflow_size ∧
      hash_set_contains_value natCallbacks
        ((run natCallbacks 2 [Op.insert 0, Op.insert 1, Op.insert 2, Op.insert 3, Op.insert 4, Op.insert 5,
        Op.insert 6, Op.insert 7, Op.insert 8, Op.insert 9, Op.insert 10]).getD hash_set_alloc) (some 11) = 0 ∧
      3 * ((run natCallbacks 2 [Op.insert 0, Op.insert 1, Op.insert 2, Op.insert 3, Op.insert 4, Op.insert 5,
        Op.insert 6, Op.insert 7, Op.insert 8, Op.insert 9, Op.insert 10]).getD hash_set_alloc).capacity ≤
        4 * (((run natCallbacks 2 [Op.insert 0, Op.insert 1, Op.insert 2, Op.insert 3, Op.insert 4, Op.insert 5,
        Op.insert 6, Op.insert 7, Op.insert 8, Op.insert 9, Op.insert 10]).getD hash_set_alloc).size + 1) ∧
      peak_card ([Op.insert 1, Op.insert 2] ++ [Op.insert 3]) ∅ < overflow_size ∧
      hash_set_contains_value natCallbacks
        ((run natCallbacks 2 [Op.insert 1, Op.insert 2]).getD hash_set_alloc) (some 3) = 0 ∧
      ((∃ s, run natCallbacks 2 [Op.insert 0, Op.insert 1, Op.insert 2, Op.insert 3, Op.insert 4, Op.insert 5,
              Op.insert 6, Op.insert 7, Op.insert 8, Op.insert 9, Op.insert 10] = some s ∧
        (peak_card ([Op.insert 0, Op.insert 1, Op.insert 2, Op.insert 3, Op.insert 4, Op.insert 5,
              Op.insert 6, Op.insert 7, Op.insert 8, Op.insert 9, Op.insert 10] ++ [Op.insert 11]) ∅ < overflow_size →
          hash_set_contains_value natCallbacks s (some 11) = 0 →
          ∃ s1, hash_set_insert natCallbacks 2 s (some 11) = some (s1, 1) ∧
            s1.capacity =
              if HASH_SET_MAX_LOAD_FACTOR ≤ ((s.size + 1 : Nat) : ℚ) / (s.capacity : ℚ)
              then s.capacity * HASH_SET_GROWTH_FACTOR else s.capacity)) ∧
      (∀ vs : List Nat, vs.Nodup → vs.length = 13 →
        ∃ s13, run natCallbacks 2 (vs.map Op.insert) = some s13 ∧ s13.capacity = 32 ∧ s13.size = 13 ∧
          ∀ x, x ∈ vs → hash_set_contains_value natCallbacks s13 (some x) = 1)) ∧
      (∃ s, run natCallbacks 2 [Op.insert 1, Op.insert 2] = some s ∧
        (peak_card ([Op.insert 1, Op.insert 2] ++ [Op.insert 3]) ∅ < overflow_size →
          hash_set_contains_value natCallbacks s (some 3) = 0 →
          ∃ s1, hash_set_insert natCallbacks 2 s (some 3) = some (s1, 1) ∧
            s1.capacity =
              if HASH_SET_MAX_LOAD_FACTOR ≤ ((s.size + 1 : Nat) : ℚ) / (s.capacity : ℚ)
              then s.capacity * HASH_SET_GROWTH_FACTOR else s.capacity)) :=
  ⟨natCallbacks_faithful, le_refl 2, by decide, by decide!, by decide!, by decide, by decide!,
    growth_trigger natCallbacks_faithful 2 (le_refl 2)
      [Op.insert 0, Op.insert 1, Op.insert 2, Op.insert 3, Op.insert 4, Op.insert 5,
        Op.insert 6, Op.insert 7, Op.insert 8, Op.insert 9, Op.insert 10] 11,
    (growth_trigger natCallbacks_faithful 2 (le_refl 2) [Op.insert 1, Op.insert 2] 3).1⟩

end CHashSet
